import Mathlib

/-!
Verification development for the `tsk-rs` task/note tracker.

The definitions below are a shallow embedding of the core of the program
(`src/task.rs`, `src/parser/task_lexicon.rs`):

* Rust `String`/`&str` values are modelled as `List Char` (`Str` below); the
  byte-level slicing done by the lexer always happens at character boundaries,
  so character lists are a faithful carrier.
* `chrono` timestamps are modelled as integers (a count of seconds; `chrono`
  itself stores nanoseconds, only the length of a day matters for the code
  under study).  The external `chrono` string codec (`to_rfc3339` /
  `DateTime::from_str`) is modelled by storing parsed values directly: a
  metadata value is either an uninterpreted string `MetaValue.raw`, a
  timestamp `MetaValue.time` (the image of the rfc3339 codec), or a decimal
  number `MetaValue.num` (the image of `format!("{}", n)`).  A value that is
  not in the image of the codec fails to parse, exactly as a garbage string
  would in the program.
* `BTreeMap<String, String>` is modelled as an association list with
  insert-replaces semantics (`mget` / `minsert`).  No claim depends on the
  iteration order of the map.
* fallible Rust functions returning `Result` are modelled with `Except`;
  panics are modelled as dedicated error constructors, kept distinct from the
  typed errors the program returns.
* the single `f32` computation in `Task::score` is emulated exactly
  (round-to-nearest-even, 24-bit significands); see `ageScore`.
-/

/-- Rust strings, as lists of characters. -/
abbrev Str := List Char

instance {ε α : Type} [DecidableEq ε] [DecidableEq α] : DecidableEq (Except ε α) := fun a b =>
  match a, b with
  | .ok x, .ok y => if h : x = y then .isTrue (by rw [h]) else .isFalse (by simp [h])
  | .error x, .error y => if h : x = y then .isTrue (by rw [h]) else .isFalse (by simp [h])
  | .ok _, .error _ => .isFalse (by simp)
  | .error _, .ok _ => .isFalse (by simp)

namespace Tsk

/-! ## Metadata map (`BTreeMap<String, String>` in the source) -/

/-- A metadata value.  The source stores strings; the external codecs are
modelled by their images: `time t` is the rfc3339 rendering of timestamp `t`,
`num n` is the decimal rendering of `n`, and `raw s` is any other string
(user-supplied metadata values, priority names, or garbage). -/
inductive MetaValue where
  | raw (s : Str)
  | time (t : Int)
  | num (n : Nat)
deriving DecidableEq

/-- Association-list model of `BTreeMap<String, String>`. -/
abbrev MMap := List (Str × MetaValue)

/-- `BTreeMap::get`. -/
def mget (m : MMap) (k : Str) : Option MetaValue :=
  match m with
  | [] => none
  | (k', v) :: rest => if k' = k then some v else mget rest k

/-- `BTreeMap::insert`: replaces the value of an existing key, otherwise adds
the binding. -/
def minsert (m : MMap) (k : Str) (v : MetaValue) : MMap :=
  match m with
  | [] => [(k, v)]
  | (k', v') :: rest => if k' = k then (k, v) :: rest else (k', v') :: minsert rest k v

/-- `BTreeMap::contains_key`. -/
def mcontains (m : MMap) (k : Str) : Bool := (mget m k).isSome

/-- `DateTime::from_str` applied to a stored metadata value: only values in
the image of the rfc3339 codec parse back. -/
def timeOfMeta : MetaValue → Option Int
  | .time t => some t
  | _ => none

/-! ## Task data model (`src/task.rs`) -/

/-- `TaskPriority` (variants `Low`, `Medium`, `High`, `Critical`). -/
inductive TaskPriority where
  | low
  | medium
  | high
  | critical
deriving DecidableEq

/-- `IntoStaticStr` on `TaskPriority`: the variant name. -/
def TaskPriority.toStr : TaskPriority → Str
  | .low => "Low".toList
  | .medium => "Medium".toList
  | .high => "High".toList
  | .critical => "Critical".toList

/-- `TaskPriority::from_str` (strum `EnumString`, exact variant names). -/
def TaskPriority.fromStr? (s : Str) : Option TaskPriority :=
  if s = "Low".toList then some .low
  else if s = "Medium".toList then some .medium
  else if s = "High".toList then some .high
  else if s = "Critical".toList then some .critical
  else none

/-- Parse a stored metadata value as a priority. -/
def prioOfMeta : MetaValue → Option TaskPriority
  | .raw s => TaskPriority.fromStr? s
  | _ => none

/-- `TaskError` from `src/task.rs`. -/
inductive TaskError where
  | multipleProjectsNotAllowed
  | multiplePrioritiesNotAllowed
  | multipleDuedatesNotAllowed
  | identicalMetadataKeyNotAllowed (k : Str)
  | metadataPrefixInvalid (k : Str)
  | taskAlreadyCompleted
  | taskAlreadyRunning
  | taskNotRunning
  | taskDescriptorEmpty
deriving DecidableEq

/-- `TimeTrack`: one time-tracking interval.  The source calls the last field
`annotation`. -/
structure TimeTrack where
  start_time : Int
  end_time : Option Int
  annot : Option Str
deriving DecidableEq

/-- `Task` from `src/task.rs`; `Uuid` is modelled as a number. -/
structure Task where
  id : Nat
  description : Str
  done : Bool
  project : Option Str
  tags : Option (List Str)
  metadata : MMap
  timetracker : Option (List TimeTrack)
deriving DecidableEq

def keyCreateTime : Str := "tsk-rs-task-create-time".toList

def keyCompletedTime : Str := "tsk-rs-task-completed-time".toList

def keyPriority : Str := "tsk-rs-task-priority".toList

def keyDueTime : Str := "tsk-rs-task-due-time".toList

def keyScore : Str := "tsk-rs-task-score".toList

def tagNext : Str := "next".toList

def tagHold : Str := "hold".toList

/-- `Task::is_running`: true when some interval has no end timestamp. -/
def Task.is_running (t : Task) : Bool :=
  match t.timetracker with
  | none => false
  | some tts => tts.any (fun tt => tt.end_time.isNone)

/-- Position and value of the first interval with no end timestamp. -/
def findOpenIdx : Nat → List TimeTrack → Option (Nat × TimeTrack)
  | _, [] => none
  | i, tt :: rest => if tt.end_time.isNone then some (i, tt) else findOpenIdx (i + 1) rest

/-- `Task::current_timetrack`.  The source unwraps `self.timetracker`
(panicking when it is `None`); every caller guards with `is_running`, and
on `None` the scan finds nothing, so the model returns `none` there. -/
def Task.current_timetrack (t : Task) : Option (Nat × TimeTrack) :=
  findOpenIdx 0 (t.timetracker.getD [])

/-- `Task::start`: fails on a completed task, appends a fresh open interval
when idle, fails when already running. -/
def Task.start (t : Task) (now : Int) (ann : Option Str) : Except TaskError (Task × TimeTrack) :=
  if t.done then .error .taskAlreadyCompleted
  else if ¬ t.is_running then
    let tt : TimeTrack := { start_time := now, end_time := none, annot := ann }
    .ok ({ t with timetracker := some (t.timetracker.getD [] ++ [tt]) }, tt)
  else .error .taskAlreadyRunning

/-- `Task::stop`: fails on a completed task, closes the first open interval
when running (`remove pos` followed by `insert pos` is `List.set pos`),
fails when idle.  The `none` inner branch is unreachable (`is_running`
guarantees an open interval; the source unwraps there). -/
def Task.stop (t : Task) (now : Int) : Except TaskError (Task × Option TimeTrack) :=
  if t.done then .error .taskAlreadyCompleted
  else if t.is_running then
    match t.current_timetrack with
    | some (pos, tt) =>
      let tt' : TimeTrack := { tt with end_time := some now }
      .ok ({ t with timetracker := some ((t.timetracker.getD []).set pos tt') }, some tt')
    | none => .error .taskNotRunning
  else .error .taskNotRunning

/-- `Task::mark_as_completed`.  The source reads the clock twice (once inside
`stop`, once for the completion timestamp), hence the two time arguments. -/
def Task.mark_as_completed (t : Task) (nowStop nowDone : Int) : Except TaskError Task := do
  let t1 ←
    if t.is_running then do
      let r ← t.stop nowStop
      pure r.1
    else pure t
  if ¬ t1.done then
    pure { t1 with done := true,
                   metadata := minsert t1.metadata keyCompletedTime (.time nowDone) }
  else
    pure t1

/-- The task and interval `Task::start` returns on success. -/
def startResult (t : Task) (now : Int) (ann : Option Str) : Task × TimeTrack :=
  ({ t with timetracker :=
        some (t.timetracker.getD [] ++ [{ start_time := now, end_time := none, annot := ann }]) },
   { start_time := now, end_time := none, annot := ann })

/-- The task `Task::stop` returns on success, closing the interval at
position `i`. -/
def stopResult (t : Task) (now : Int) (i : Nat) (tt : TimeTrack) : Task × Option TimeTrack :=
  ({ t with timetracker :=
        some ((t.timetracker.getD []).set i { tt with end_time := some now }) },
   some { tt with end_time := some now })

/-- The completed task `mark_as_completed` produces from an intermediate
state `u`: done is set and the completion timestamp recorded. -/
def completeResult (u : Task) (n2 : Int) : Task :=
  { u with done := true, metadata := minsert u.metadata keyCompletedTime (.time n2) }

/-! ## The urgency scorer (`Task::score`)

`chrono::Duration::num_days` divides by the length of a day, truncating
toward zero; timestamps are in seconds here. -/

def secsPerDay : Int := 86400

/-- `Duration::num_days` of a difference of timestamps. -/
def numDays (diff : Int) : Int := Int.tdiv diff secsPerDay

/-- Number of binary digits of `n`, driven by explicit fuel so that the
kernel can evaluate it.  `bitLen` is exact for every `n < 2 ^ 128`; the
numbers reaching it are products of a 64-bit day count (`num_days` returns
`i64`) with the 24-bit constant below. -/
def bitLenF : Nat → Nat → Nat
  | 0, _ => 0
  | fuel + 1, n => if n = 0 then 0 else bitLenF fuel (n / 2) + 1

def bitLen (n : Nat) : Nat := bitLenF 128 n

/-- Round `n` to a multiple of `2 ^ s`, rounding half to an even quotient
(the IEEE-754 default rounding), returning the quotient. -/
def roundShiftEven (n s : Nat) : Nat :=
  let q := n / 2 ^ s
  let r := n % 2 ^ s
  let half := 2 ^ s / 2
  if r > half then q + 1 else if r < half then q else if q % 2 = 1 then q + 1 else q

/-- Round a natural number to at most 24 significant binary digits (an `f32`
significand): the value of the result is `fst * 2 ^ snd`. -/
def roundSig24 (n : Nat) : Nat × Nat :=
  let b := bitLen n
  if b ≤ 24 then (n, 0) else (roundShiftEven n (b - 24), b - 24)

/-- `n as f32` for a 64-bit magnitude: the exact integer value of the nearest
`f32` (round to nearest, ties to even; these magnitudes never overflow). -/
def natToF32 (n : Nat) : Nat := (roundSig24 n).1 * 2 ^ (roundSig24 n).2

/-- The `f32` literal `0.142_857_15` in `Task::score` is exactly
`9586981 / 2 ^ 26`. -/
def f32ScoreConst : Nat := 9586981

/-- `(x * 0.142_857_15) as usize` where `x` is a nonnegative integer-valued
`f32`: the exact product `x * 9586981 / 2 ^ 26` is rounded to the nearest
`f32` and then truncated toward zero. -/
def mulConstTruncF32 (x : Nat) : Nat :=
  let p := roundSig24 (x * f32ScoreConst)
  if 26 ≤ p.2 then p.1 * 2 ^ (p.2 - 26) else p.1 / 2 ^ (26 - p.2)

/-- `(create_diff.num_days() as f32 * 0.142_857_15) as usize` from
`Task::score`: for a negative day count the product is negative and the
float-to-`usize` cast saturates to 0. -/
def ageScore (d : Int) : Nat :=
  if d < 0 then 0 else mulConstTruncF32 (natToF32 d.toNat)

/-- The outcome of `Task::score`.  `panicMissingCreateTime` models the
`unwrap()` on the creation-time metadata lookup: the process aborts instead
of returning a typed error.  The other constructors model the typed `Err`
returns produced via `with_context`. -/
inductive ScoreErr where
  | panicMissingCreateTime
  | invalidPriority
  | invalidDueDate
  | invalidCreateDate
deriving DecidableEq

/-- The priority term of `Task::score`: absent +0; otherwise the stored
value must parse back as a `TaskPriority` (low +1, medium +3, high +8,
critical +13). -/
def prioScoreTerm (m : MMap) : Except ScoreErr Nat :=
  match mget m keyPriority with
  | none => .ok 0
  | some pv =>
    match prioOfMeta pv with
    | some .low => .ok 1
    | some .medium => .ok 3
    | some .high => .ok 8
    | some .critical => .ok 13
    | none => .error .invalidPriority

/-- The due-date term of `Task::score`: absent +0; negative day difference
+10, within 0–2 days +7, within 3–5 days +3, otherwise +1. -/
def dueScoreTerm (m : MMap) (now : Int) : Except ScoreErr Nat :=
  match mget m keyDueTime with
  | none => .ok 0
  | some dv =>
    match timeOfMeta dv with
    | none => .error .invalidDueDate
    | some due =>
      let diff := numDays (due - now)
      if diff < 0 then .ok 10
      else if diff ≤ 2 then .ok 7
      else if diff ≤ 5 then .ok 3
      else .ok 1

/-- The age term of `Task::score`: the creation-time entry is looked up with
`unwrap()` (a missing entry aborts the process — `panicMissingCreateTime`),
parsed, and fed through the `f32` weight computation `ageScore`. -/
def createAgeScoreTerm (m : MMap) (now : Int) : Except ScoreErr Nat :=
  match mget m keyCreateTime with
  | none => .error .panicMissingCreateTime
  | some cv =>
    match timeOfMeta cv with
    | none => .error .invalidCreateDate
    | some created => .ok (ageScore (numDays (now - created)))

/-- The special-tag block at the end of `Task::score`: `"next"` adds 100,
then `"hold"` subtracts 20, clamped at 0. -/
def specialTagAdjust (tags : Option (List Str)) (score : Nat) : Nat :=
  match tags with
  | none => score
  | some tags =>
    let s1 := if tags.contains tagNext then score + 100 else score
    if tags.contains tagHold then (if 20 ≤ s1 then s1 - 20 else 0) else s1

/-- `Task::score` (src/task.rs), term by term in source order: project +3,
each tag entry +2, running +15, each timetracker interval +1, then the
priority, due-date and age terms, then the special-tag adjustment. -/
def Task.score (t : Task) (now : Int) : Except ScoreErr Nat := do
  let base : Nat :=
    (if t.project.isSome then 3 else 0)
    + (match t.tags with | some tags => tags.length * 2 | none => 0)
    + (if t.is_running then 15 else 0)
    + (match t.timetracker with | some tts => tts.length | none => 0)
  let p ← prioScoreTerm t.metadata
  let d ← dueScoreTerm t.metadata now
  let a ← createAgeScoreTerm t.metadata now
  pure (specialTagAdjust t.tags (base + p + d + a))

/-- `Task::new`: fresh task with only the creation-time metadata entry, then
the score is computed and stored. -/
def Task.new (id : Nat) (description : Str) (now : Int) : Except ScoreErr Task := do
  let t : Task := { id := id, description := description, done := false, project := none,
                    tags := none, metadata := [(keyCreateTime, .time now)], timetracker := none }
  let s ← t.score now
  pure { t with metadata := minsert t.metadata keyScore (.num s) }

/-- `Task::to_yaml_string` recomputes the score and stores it in the metadata
before serializing; the serialization itself is external.  The model returns
the task state that gets serialized. -/
def Task.to_yaml_model (t : Task) (now : Int) : Except ScoreErr Task := do
  let s ← t.score now
  pure { t with metadata := minsert t.metadata keyScore (.num s) }

/-- `Task::from_yaml_string` after the external deserialization step: the
score is recomputed and stored in the metadata of the loaded task.  `load_task`
and `list_tasks` both load through this function. -/
def Task.from_yaml_model (t : Task) (now : Int) : Except ScoreErr Task := do
  let s ← t.score now
  pure { t with metadata := minsert t.metadata keyScore (.num s) }

/-! ## The directive lexer (`src/parser/task_lexicon.rs`)

The nom combinators are modelled directly: a parser takes the input and
returns `none` on failure or `some (remaining, value)` on success.  All
combinators used by the lexer are `complete`, so the nom `Incomplete` /
`Failure` cases never arise. -/

/-- `c as u8` in Rust truncates the scalar value to 8 bits. -/
def byteOfChar (c : Char) : Nat := c.toNat % 256

/-- `nonws_char`: neither `is_space` (0x20, 0x09) nor `is_newline` (0x0a),
each tested on the truncated byte. -/
def nonws_char (c : Char) : Bool :=
  !(byteOfChar c == 32 || byteOfChar c == 9) && !(byteOfChar c == 10)

/-- `allowed_meta_character`. -/
def allowed_meta_character (c : Char) : Bool := nonws_char c && c != '='

/-- `take_while1`: the maximal nonempty run of characters satisfying `p`. -/
def takeWhile1 (p : Char → Bool) (input : Str) : Option (Str × Str) :=
  let tk := input.takeWhile p
  if tk = [] then none else some (input.dropWhile p, tk)

/-- `word`. -/
def word (input : Str) : Option (Str × Str) := takeWhile1 nonws_char input

/-- `meta_word`. -/
def meta_word (input : Str) : Option (Str × Str) := takeWhile1 allowed_meta_character input

/-- `char(c)`: consume exactly the character `c`. -/
def pchar (c : Char) (input : Str) : Option Str :=
  match input with
  | [] => none
  | x :: rest => if x = c then some rest else none

/-- `tag(t)`: consume exactly the literal `t`. -/
def ptagLit (t : Str) (input : Str) : Option Str :=
  if t.isPrefixOf input then some (input.drop t.length) else none

/-- `alt` of two prefix consumers. -/
def alt2 (p q : Str → Option Str) (input : Str) : Option Str :=
  match p input with
  | some r => some r
  | none => q input

/-- `metadata_pair`: `meta_word '=' meta_word`. -/
def metadata_pair (input : Str) : Option (Str × (Str × Str)) := do
  let (r1, k) ← meta_word input
  let r2 ← pchar '=' r1
  let (r3, v) ← meta_word r2
  some (r3, (k, v))

/-- `hashtag`: `'#' word`. -/
def hashtag (input : Str) : Option (Str × Str) := do
  let r ← pchar '#' input
  word r

/-- `hashtag2`: `("tag:" | "TAG:") word`. -/
def hashtag2 (input : Str) : Option (Str × Str) := do
  let r ← alt2 (ptagLit "tag:".toList) (ptagLit "TAG:".toList) input
  word r

/-- `project`: `'@' word`. -/
def projectP (input : Str) : Option (Str × Str) := do
  let r ← pchar '@' input
  word r

/-- `project2`: `("prj:" | "proj:" | "PRJ:" | "PROJ:") word`. -/
def project2 (input : Str) : Option (Str × Str) := do
  let r ← alt2 (alt2 (ptagLit "prj:".toList) (ptagLit "proj:".toList))
               (alt2 (ptagLit "PRJ:".toList) (ptagLit "PROJ:".toList)) input
  word r

/-- `metadata`: `'%' metadata_pair`. -/
def metadataP (input : Str) : Option (Str × (Str × Str)) := do
  let r ← pchar '%' input
  metadata_pair r

/-- `metadata2`: `("META:" | "meta:") metadata_pair`. -/
def metadata2 (input : Str) : Option (Str × (Str × Str)) := do
  let r ← alt2 (ptagLit "META:".toList) (ptagLit "meta:".toList) input
  metadata_pair r

/-- `priority`: `("prio:" | "PRIO:") word`. -/
def priorityP (input : Str) : Option (Str × Str) := do
  let r ← alt2 (ptagLit "prio:".toList) (ptagLit "PRIO:".toList) input
  word r

/-- `due_date`: `("due:" | "DUE:" | "duedate:" | "DUEDATE:") word`. -/
def due_date (input : Str) : Option (Str × Str) := do
  let r ← alt2 (alt2 (ptagLit "due:".toList) (ptagLit "DUE:".toList))
               (alt2 (ptagLit "duedate:".toList) (ptagLit "DUEDATE:".toList)) input
  word r

/-- `ExpressionPrototype`: the raw directives, still carrying strings. -/
inductive Proto where
  | desc (s : Str)
  | proj (s : Str)
  | tagP (s : Str)
  | metaKV (k v : Str)
  | prio (s : Str)
  | due (s : Str)
deriving DecidableEq

/-- `directive`: `alt` over the eight directive parsers, in source order. -/
def directive (input : Str) : Option (Str × Proto) :=
  match hashtag input with
  | some (r, s) => some (r, .tagP s)
  | none =>
  match hashtag2 input with
  | some (r, s) => some (r, .tagP s)
  | none =>
  match projectP input with
  | some (r, s) => some (r, .proj s)
  | none =>
  match project2 input with
  | some (r, s) => some (r, .proj s)
  | none =>
  match metadataP input with
  | some (r, kv) => some (r, .metaKV kv.1 kv.2)
  | none =>
  match metadata2 input with
  | some (r, kv) => some (r, .metaKV kv.1 kv.2)
  | none =>
  match priorityP input with
  | some (r, s) => some (r, .prio s)
  | none =>
  match due_date input with
  | some (r, s) => some (r, .due s)
  | none => none

/-- The inner `for (current_index, _) in current_input.char_indices()` loop of
`parse_inline`: the first offset at which `directive` matches, together with
the unconsumed remainder and the parsed directive. -/
def findDirectiveAux : Str → Nat → Option (Nat × Str × Proto)
  | [], _ => none
  | c :: rest, i =>
    match directive (c :: rest) with
    | some (rem, p) => some (i, rem, p)
    | none => findDirectiveAux rest (i + 1)

def findDirective (s : Str) : Option (Nat × Str × Proto) := findDirectiveAux s 0

/-- `char::is_whitespace` (the Unicode `White_Space` property), used by
`str::trim`. -/
def isRustWhitespace (c : Char) : Bool :=
  [9, 10, 11, 12, 13, 32, 0x85, 0xA0, 0x1680, 0x2028, 0x2029, 0x202F,
   0x205F, 0x3000].contains c.toNat
  || (0x2000 ≤ c.toNat && c.toNat ≤ 0x200A)

/-- `str::trim`. -/
def trimStr (s : Str) : Str :=
  ((s.dropWhile isRustWhitespace).reverse.dropWhile isRustWhitespace).reverse

/-- The outer `while` loop of `parse_inline`, driven by explicit fuel so that
the kernel can evaluate it: each round consumes at least one character, so
`length + 1` units of fuel always suffice (`parse_inline` below). -/
def parse_inlineF : Nat → Str → List Proto
  | 0, _ => []
  | fuel + 1, input =>
    if input = [] then []
    else
      match findDirective input with
      | some (i, rem, p) =>
        let leading := trimStr (input.take i)
        (if leading = [] then [p] else [.desc leading, p]) ++ parse_inlineF fuel rem
      | none => [.desc (trimStr input)]

/-- `parse_inline` (src/parser/task_lexicon.rs).  It consumes all of its
input and never fails (the `Err` branch of the source only forwards nom
`Failure`/`Incomplete` results, which the complete combinators above never
produce), so `all_consuming(parse_inline)` in `parse_task` always succeeds. -/
def parse_inline (input : Str) : List Proto := parse_inlineF (input.length + 1) input

/-- `char::to_ascii_lowercase`, extended over a string by `str::to_ascii_lowercase`. -/
def asciiLowerChar (c : Char) : Char :=
  if 'A' ≤ c && c ≤ 'Z' then Char.ofNat (c.toNat + 32) else c

def asciiLower (s : Str) : Str := s.map asciiLowerChar

/-- The priority branch of `Expression::from_prototype`: lowercase the word,
capitalize its first letter and apply `TaskPriority::from_str`; only the four
level names are accepted.  (The source uses the full Unicode `to_lowercase`;
no non-ASCII character lowercases into the ASCII letters of the four level
names, so ASCII lowering accepts the same words.) -/
def protoPrioToPriority (s : Str) : Option TaskPriority :=
  let l := asciiLower s
  if l = "low".toList then some .low
  else if l = "medium".toList then some .medium
  else if l = "high".toList then some .high
  else if l = "critical".toList then some .critical
  else none

/-- Binary digits, most significant first (helper for the modelled date-time
codec below). -/
def bitsToNatAux : Nat → Str → Option Nat
  | acc, [] => some acc
  | acc, c :: rest =>
    if c = '0' then bitsToNatAux (2 * acc) rest
    else if c = '1' then bitsToNatAux (2 * acc + 1) rest
    else none

/-- Modelled external codec: `NaiveDateTime::from_str` (chrono).  The exact
chrono grammar is not reproduced; the model's parseable date-time words are
`T<binary digits>` and denote the timestamp the digits spell.  Everything the
claims need is that some words parse to timestamps and the rest fail. -/
def parseNaiveDT (s : Str) : Option Int :=
  match s with
  | 'T' :: rest => if rest = [] then none else (bitsToNatAux 0 rest).map Int.ofNat
  | _ => none

/-- `Expression`: prototypes after `Expression::from_prototype`. -/
inductive Expression where
  | description (s : Str)
  | project (s : Str)
  | tag (s : Str)
  | metaKV (k v : Str)
  | priority (p : TaskPriority)
  | duedate (d : Int)
deriving DecidableEq

/-- Failures of `Expression::from_prototype` (propagated by `parse_task` with
context). -/
inductive FromProtoErr where
  | invalidPriority (s : Str)
  | invalidDuedate (s : Str)
deriving DecidableEq

/-- `Expression::from_prototype`. -/
def fromPrototype : Proto → Except FromProtoErr Expression
  | .desc s => .ok (.description s)
  | .proj s => .ok (.project s)
  | .tagP s => .ok (.tag s)
  | .metaKV k v => .ok (.metaKV k v)
  | .prio s =>
    match protoPrioToPriority s with
    | some p => .ok (.priority p)
    | none => .error (.invalidPriority s)
  | .due s =>
    match parseNaiveDT s with
    | some d => .ok (.duedate d)
    | none => .error (.invalidDuedate s)

/-- The conversion loop of `parse_task`: `Expression::from_prototype` on
every prototype in order, propagating the first failure. -/
def protosToExprs : List Proto → Except FromProtoErr (List Expression)
  | [] => .ok []
  | p :: rest => do
    let e ← fromPrototype p
    let es ← protosToExprs rest
    pure (e :: es)

/-- `parse_task`: lex, then convert every prototype. -/
def parse_task (input : Str) : Except FromProtoErr (List Expression) :=
  protosToExprs (parse_inline input)

/-! ## The descriptor compiler (`Task::from_task_descriptor`) -/

/-- The mutable accumulators of the expression fold in
`Task::from_task_descriptor`. -/
structure CompileSt where
  description : Str
  tags : List Str
  metadata : MMap
  project : Str
deriving DecidableEq

def compileInit : CompileSt := { description := [], tags := [], metadata := [], project := [] }

/-- The user metadata key marker `"x-"`. -/
def xPre : Str := "x-".toList

/-- One iteration of the expression fold in `Task::from_task_descriptor`. -/
def compileStep (st : CompileSt) (e : Expression) : Except TaskError CompileSt :=
  match e with
  | .description d =>
    if st.description ≠ [] then .ok { st with description := st.description ++ ' ' :: d }
    else .ok { st with description := d }
  | .tag tg =>
    if st.tags.contains tg then .ok st else .ok { st with tags := st.tags ++ [tg] }
  | .metaKV k v =>
    let nk := asciiLower k
    if ¬ xPre.isPrefixOf nk then .error (.metadataPrefixInvalid nk)
    else if mcontains st.metadata nk then .error (.identicalMetadataKeyNotAllowed nk)
    else .ok { st with metadata := minsert st.metadata nk (.raw v) }
  | .project p =>
    if st.project ≠ [] then .error .multipleProjectsNotAllowed
    else .ok { st with project := p }
  | .priority p =>
    if mcontains st.metadata keyPriority then .error .multiplePrioritiesNotAllowed
    else .ok { st with metadata := minsert st.metadata keyPriority (.raw p.toStr) }
  | .duedate d =>
    if mcontains st.metadata keyDueTime then .error .multipleDuedatesNotAllowed
    else .ok { st with metadata := minsert st.metadata keyDueTime (.time d) }

/-- The whole expression fold. -/
def compileExprs (es : List Expression) : Except TaskError CompileSt :=
  es.foldlM compileStep compileInit

/-- Errors of `Task::from_task_descriptor` (the source mixes them in one
`color_eyre` report; the model keeps them apart by origin). -/
inductive DescriptorErr where
  | taskErr (e : TaskError)
  | lexErr (e : FromProtoErr)
  | scoreErr (e : ScoreErr)
deriving DecidableEq

/-- The task `from_task_descriptor` assembles from the fold result (empty
accumulators become `None`), before the score is stored: the creation-time
metadata entry is inserted here. -/
def taskOfCompile (st : CompileSt) (id : Nat) (now : Int) : Task :=
  { id := id, description := st.description, done := false,
    tags := if st.tags = [] then none else some st.tags,
    metadata := minsert st.metadata keyCreateTime (.time now),
    project := if st.project = [] then none else some st.project,
    timetracker := none }

/-- `Task::from_task_descriptor`: reject the empty descriptor, lex, fold,
assemble the task, then compute and store the score. -/
def from_task_descriptor (input : Str) (id : Nat) (now : Int) : Except DescriptorErr Task :=
  if input = [] then .error (.taskErr .taskDescriptorEmpty)
  else
    match parse_task input with
    | .error e => .error (.lexErr e)
    | .ok es =>
      match compileExprs es with
      | .error e => .error (.taskErr e)
      | .ok st =>
        match (taskOfCompile st id now).score now with
        | .error e => .error (.scoreErr e)
        | .ok s =>
          .ok { taskOfCompile st id now with
                metadata := minsert (taskOfCompile st id now).metadata keyScore (.num s) }

/-- `MetadataKeyValuePair` (src/metadata.rs). -/
structure MetadataKVP where
  key : Str
  value : Str
deriving DecidableEq

/-- The tag loop of `Task::set_characteristic`: push each tag not already
present, remembering whether anything was pushed. -/
def setCharTags (task_tags : List Str) (tags : List Str) : List Str × Bool :=
  tags.foldl
    (fun acc new_tag =>
      if acc.1.contains new_tag then acc else (acc.1 ++ [new_tag], true))
    (task_tags, false)

/-- `Task::set_characteristic`: every given characteristic is written
unconditionally (existing metadata keys are overwritten without error); the
returned flag reports whether anything was modified. -/
def Task.set_characteristic (t : Task) (priority : Option TaskPriority) (due_d : Option Int)
    (tags : Option (List Str)) (project : Option Str) (metadata : Option (List MetadataKVP)) :
    Task × Bool :=
  let r1 : Task × Bool :=
    match priority with
    | some p => ({ t with metadata := minsert t.metadata keyPriority (.raw p.toStr) }, true)
    | none => (t, false)
  let r2 : Task × Bool :=
    match due_d with
    | some d => ({ r1.1 with metadata := minsert r1.1.metadata keyDueTime (.time d) }, true)
    | none => r1
  let r3 : Task × Bool :=
    match tags with
    | some tgs =>
      let tr := setCharTags (r2.1.tags.getD []) tgs
      if tr.2 then ({ r2.1 with tags := some tr.1 }, true) else r2
    | none => r2
  let r4 : Task × Bool :=
    if project.isSome then ({ r3.1 with project := project }, true) else r3
  match metadata with
  | some ms =>
    (ms.foldl (fun acc kv => { acc with metadata := minsert acc.metadata kv.key (.raw kv.value) }) r4.1,
     if ms = [] then r4.2 else true)
  | none => r4

/-! ## Listing and counting entity files -/

/-- Rust `str::contains` on our carrier: `needle` occurs contiguously in
`hay`. -/
def isInfixL (needle hay : Str) : Bool :=
  needle.isPrefixOf hay ||
  match hay with
  | [] => false
  | _ :: rest => isInfixL needle rest

/-- `Task::loose_match` (the source lowercases with the Unicode
`to_lowercase`; ASCII lowering is used here, as in `asciiLower`). -/
def Task.loose_match (t : Task) (search : Str) : Bool :=
  isInfixL (asciiLower search) (asciiLower t.description) ||
  (match t.project with
   | some p => isInfixL (asciiLower search) (asciiLower p)
   | none => false) ||
  (match t.tags with
   | some tags => tags.any (fun tg => isInfixL (asciiLower search) (asciiLower tg))
   | none => false)

/-- Stable insertion for `sortByKeyAsc`. -/
def insertAsc {α : Type} (key : α → Nat) (x : α) : List α → List α
  | [] => [x]
  | y :: rest => if key x ≤ key y then x :: y :: rest else y :: insertAsc key x rest

/-- `Vec::sort_by_key`: a stable ascending sort by key (Rust's sort is
stable; any stable sort computes the same list). -/
def sortByKeyAsc {α : Type} (key : α → Nat) : List α → List α
  | [] => []
  | x :: rest => insertAsc key x (sortByKeyAsc key rest)

/-- The `k.score().unwrap()` sort key of `list_tasks`.  A task whose score
fails cannot have been loaded (loading recomputes the score), so the default
is never reached in context; theorems that rely on the key assume every
listed task's score computes. -/
def scoreKey (now : Int) (t : Task) : Nat :=
  match t.score now with
  | .ok n => n
  | .error _ => 0

/-- The filter stage of `list_tasks`: drop done tasks unless asked for, and
apply the optional loose-match search. -/
def list_tasks_found (tasks : List Task) (search : Option Str) (include_done : Bool) :
    List Task :=
  tasks.filter (fun t =>
    (!t.done || include_done) &&
    match search with
    | some s => t.loose_match s
    | none => true)

/-- `list_tasks` after the files have been read: filter, then
`sort_by_key(score)` followed by `reverse()`. -/
def list_tasks_model (tasks : List Task) (search : Option Str) (include_done : Bool)
    (now : Int) : List Task :=
  (sortByKeyAsc (scoreKey now) (list_tasks_found tasks search include_done)).reverse

/-- `str::split('.')`: the components of `s` between the dots (empty
components included). -/
def splitOnDotAux (cur : Str) : Str → List Str
  | [] => [cur.reverse]
  | c :: rest =>
    if c = '.' then cur.reverse :: splitOnDotAux [] rest
    else splitOnDotAux (c :: cur) rest

def splitOnDot (s : Str) : List Str := splitOnDotAux [] s

/-- The backup filter shared by `amount_of_tasks`, `list_tasks` and
`list_notes`: the component at index 1 of `file_name.split('.')` is compared
with `"yaml"`.  `none` models the index-out-of-bounds panic on a dot-free
name (the glob pattern `*.yaml` guarantees at least two components). -/
def entityFileKept (name : Str) : Option Bool :=
  match splitOnDot name with
  | _ :: c :: _ => some (c = "yaml".toList)
  | _ => none

/-- `amount_of_tasks` over the filenames the glob produced: skip a file
exactly when its filter component is not `"yaml"` and backups are not
requested; `none` models the panic inside the loop. -/
def amount_of_tasks_model : List Str → Bool → Option Nat
  | [], _ => some 0
  | n :: rest, include_backups => do
    let k ← entityFileKept n
    let c ← amount_of_tasks_model rest include_backups
    some (if k = false && include_backups = false then c else c + 1)

/-- The filenames `list_tasks` (and `list_notes`) actually load, over the
filenames the glob produced. -/
def keptNames : List Str → Option (List Str)
  | [] => some []
  | n :: rest => do
    let k ← entityFileKept n
    let r ← keptNames rest
    some (if k then n :: r else r)

/-! ## Reachable task states (for the state-machine claims) -/

/-- Number of open (endless) intervals of a task. -/
def openCount (t : Task) : Nat :=
  ((t.timetracker.getD []).filter (fun tt => tt.end_time.isNone)).length

/-- Task states reachable from a newly created task (both creation paths
leave `timetracker` empty) by `start`, `stop` and `mark_as_completed`. -/
inductive Reachable : Task → Prop where
  | base (t : Task) : t.timetracker = none → Reachable t
  | start (t t' : Task) (now : Int) (ann : Option Str) (tt : TimeTrack) :
      Reachable t → t.start now ann = .ok (t', tt) → Reachable t'
  | stop (t t' : Task) (now : Int) (r : Option TimeTrack) :
      Reachable t → t.stop now = .ok (t', r) → Reachable t'
  | complete (t t' : Task) (n1 n2 : Int) :
      Reachable t → t.mark_as_completed n1 n2 = .ok t' → Reachable t'

/-! ## Specification-side definitions

These formalise the words of the specification (and of the claims), for
comparison against the implementation definitions above.  They are the only
definitions translated from the spec rather than from the source. -/

/-- Claim C1's age term, as the claim words it: `floor(days since creation
/ 7)` — an integer, possibly negative when the creation time lies in the
future. -/
def claimAgeC1 (d : Int) : Int := Int.fdiv d 7

/-- The claim's priority term (integer-valued; parsing as in the program). -/
def claimPrioTerm (m : MMap) : Except ScoreErr Int :=
  match mget m keyPriority with
  | none => .ok 0
  | some pv =>
    match prioOfMeta pv with
    | some .low => .ok 1
    | some .medium => .ok 3
    | some .high => .ok 8
    | some .critical => .ok 13
    | none => .error .invalidPriority

/-- The claim's due-date term (integer-valued). -/
def claimDueTerm (m : MMap) (now : Int) : Except ScoreErr Int :=
  match mget m keyDueTime with
  | none => .ok 0
  | some dv =>
    match timeOfMeta dv with
    | none => .error .invalidDueDate
    | some due =>
      let diff := numDays (due - now)
      if diff < 0 then .ok 10
      else if diff ≤ 2 then .ok 7
      else if diff ≤ 5 then .ok 3
      else .ok 1

/-- The claim's age term: `floor(days since creation / 7)`. -/
def claimAgeTermC1 (m : MMap) (now : Int) : Except ScoreErr Int :=
  match mget m keyCreateTime with
  | none => .error .panicMissingCreateTime
  | some cv =>
    match timeOfMeta cv with
    | none => .error .invalidCreateDate
    | some created => .ok (claimAgeC1 (numDays (now - created)))

/-- The amended age term: the `f32` computation the source performs, which
is 0 whenever the creation time lies in the future. -/
def claimAgeTermAmended (m : MMap) (now : Int) : Except ScoreErr Int :=
  match mget m keyCreateTime with
  | none => .error .panicMissingCreateTime
  | some cv =>
    match timeOfMeta cv with
    | none => .error .invalidCreateDate
    | some created => .ok (ageScore (numDays (now - created)) : Int)

/-- The claim's special-tag adjustment, applied last: `"next"` +100,
`"hold"` −20 floored at 0 (never negative). -/
def claimAdjust (tags : Option (List Str)) (s : Int) : Int :=
  let s1 := if (tags.getD []).contains tagNext then s + 100 else s
  if (tags.getD []).contains tagHold then max (s1 - 20) 0 else s1

/-- The urgency score as claim C1 states it: independently computed terms
summed, then the special-tag adjustment applied last. -/
def claimScoreC1 (t : Task) (now : Int) : Except ScoreErr Int := do
  let p ← claimPrioTerm t.metadata
  let d ← claimDueTerm t.metadata now
  let a ← claimAgeTermC1 t.metadata now
  pure (claimAdjust t.tags
    ((if t.project.isSome then 3 else 0) + 2 * (t.tags.getD []).length
      + (if t.is_running then 15 else 0) + (t.timetracker.getD []).length + p + d + a))

/-- The amended C1 score: identical to `claimScoreC1` except that the age
term is the `f32` computation the source performs. -/
def claimScoreC1Amended (t : Task) (now : Int) : Except ScoreErr Int := do
  let p ← claimPrioTerm t.metadata
  let d ← claimDueTerm t.metadata now
  let a ← claimAgeTermAmended t.metadata now
  pure (claimAdjust t.tags
    ((if t.project.isSome then 3 else 0) + 2 * (t.tags.getD []).length
      + (if t.is_running then 15 else 0) + (t.timetracker.getD []).length + p + d + a))

/-- Claim C9's inclusion test, as the claim words it: the final dot-suffix of
the filename equals the plain extension `"yaml"`. -/
def finalSuffixIsYaml (name : Str) : Bool :=
  (splitOnDot name).getLast? == some "yaml".toList

/-! ## Theorems -/

theorem except_bind_ok {ε α β : Type} (x : α) (f : α → Except ε β) :
    (Except.ok x : Except ε α) >>= f = f x := rfl

theorem except_bind_err {ε α β : Type} (e : ε) (f : α → Except ε β) :
    (Except.error e : Except ε α) >>= f = .error e := rfl

theorem opt_bind_some {α β : Type} (a : α) (f : α → Option β) :
    (some a >>= f) = f a := rfl

theorem mget_minsert_self (m : MMap) (k : Str) (v : MetaValue) :
    mget (minsert m k v) k = some v := by
  induction m with
  | nil => simp [minsert, mget]
  | cons hd tl ih =>
    by_cases h : hd.1 = k
    · simp [minsert, h, mget]
    · simp [minsert, h, mget, ih]

theorem claimPrioTerm_eq (m : MMap) : claimPrioTerm m = (prioScoreTerm m).map Int.ofNat := by
  unfold claimPrioTerm prioScoreTerm
  cases hm : mget m keyPriority with
  | none => rfl
  | some pv =>
    cases hp : prioOfMeta pv with
    | none => simp [hp, Except.map]
    | some p => cases p <;> simp [hp, Except.map]

theorem claimDueTerm_eq (m : MMap) (now : Int) :
    claimDueTerm m now = (dueScoreTerm m now).map Int.ofNat := by
  unfold claimDueTerm dueScoreTerm
  cases hm : mget m keyDueTime with
  | none => rfl
  | some dv =>
    cases hd : timeOfMeta dv with
    | none => simp [hd, Except.map]
    | some due => simp only [hd]; split_ifs <;> simp [Except.map]

theorem claimAgeTermAmended_eq (m : MMap) (now : Int) :
    claimAgeTermAmended m now = (createAgeScoreTerm m now).map Int.ofNat := by
  unfold claimAgeTermAmended createAgeScoreTerm
  cases hm : mget m keyCreateTime with
  | none => rfl
  | some cv =>
    cases hc : timeOfMeta cv with
    | none => simp [hc, Except.map]
    | some created => simp [hc, Except.map]

theorem claimAdjust_eq (tags : Option (List Str)) (s : Nat) :
    claimAdjust tags (s : Int) = ((specialTagAdjust tags s : Nat) : Int) := by
  cases tags with
  | none => simp [claimAdjust, specialTagAdjust]
  | some tags =>
    simp only [claimAdjust, specialTagAdjust, Option.getD_some]
    by_cases hn : tags.contains tagNext <;> by_cases hh : tags.contains tagHold <;>
        simp only [hn, hh, if_true, if_false] <;> split_ifs <;> push_cast <;> omega

theorem claimAdjust_cast (tags : Option (List Str)) (x : Int) (s : Nat)
    (h : x = (s : Int)) :
    claimAdjust tags x = ((specialTagAdjust tags s : Nat) : Int) :=
  h ▸ claimAdjust_eq tags s

theorem score_base_tags (tags : Option (List Str)) :
    (match tags with | some l => l.length * 2 | none => 0) = 2 * (tags.getD []).length := by
  cases tags <;> simp [Nat.mul_comm]

theorem score_base_tts (tt : Option (List TimeTrack)) :
    (match tt with | some l => l.length | none => 0) = (tt.getD []).length := by
  cases tt <;> simp

/-- Claim C1 (amended): `Task::score` equals the claimed sum of independent
terms with the special-tag adjustment applied last — with the age term being
the `f32` computation the source performs (`claimScoreC1Amended`), not the
`floor(days/7)` of the original claim (see `c1_counterexample`) — the result
is a non-negative integer, and both the load path (`from_yaml_model`) and
the save path (`to_yaml_model`) recompute the score and store it in the
metadata. -/
theorem c1_score_decomposition :
    (∀ (t : Task) (now : Int) (n : Nat), t.score now = .ok n →
      claimScoreC1Amended t now = .ok (n : Int) ∧ 0 ≤ (n : Int)) ∧
    (∀ (t : Task) (now : Int) (t' : Task), t.from_yaml_model now = .ok t' →
      ∃ n, t.score now = .ok n ∧ mget t'.metadata keyScore = some (.num n)) ∧
    (∀ (t : Task) (now : Int) (t' : Task), t.to_yaml_model now = .ok t' →
      ∃ n, t.score now = .ok n ∧ mget t'.metadata keyScore = some (.num n)) := by
  refine ⟨?_, ?_, ?_⟩
  · intro t now n h
    refine ⟨?_, Int.ofNat_nonneg n⟩
    simp only [Task.score] at h
    cases hp : prioScoreTerm t.metadata with
    | error e => simp [hp, except_bind_err] at h
    | ok p =>
    cases hd : dueScoreTerm t.metadata now with
    | error e => simp [hp, hd, except_bind_err, except_bind_ok] at h
    | ok d =>
    cases ha : createAgeScoreTerm t.metadata now with
    | error e => simp [hp, hd, ha, except_bind_err, except_bind_ok] at h
    | ok a =>
    simp only [hp, hd, ha, except_bind_ok, pure, Except.pure, Except.ok.injEq] at h
    subst h
    simp only [claimScoreC1Amended, claimPrioTerm_eq, claimDueTerm_eq, claimAgeTermAmended_eq,
      hp, hd, ha, Except.map, except_bind_ok, pure, Except.pure, Except.ok.injEq]
    rw [score_base_tags, score_base_tts]
    refine claimAdjust_cast _ _ _ ?_
    push_cast [apply_ite (fun n : Nat => (n : Int)), Int.ofNat_eq_coe]
    ring
  · intro t now t' h
    simp only [Task.from_yaml_model] at h
    cases hs : t.score now with
    | error e => simp [hs, except_bind_err] at h
    | ok n =>
      simp only [hs, except_bind_ok, pure, Except.pure, Except.ok.injEq] at h
      subst h
      exact ⟨n, rfl, mget_minsert_self _ _ _⟩
  · intro t now t' h
    simp only [Task.to_yaml_model] at h
    cases hs : t.score now with
    | error e => simp [hs, except_bind_err] at h
    | ok n =>
      simp only [hs, except_bind_ok, pure, Except.pure, Except.ok.injEq] at h
      subst h
      exact ⟨n, rfl, mget_minsert_self _ _ _⟩

/-- Witness for `c1_score_decomposition`: a task with a creation time and a
due date three days out scores 3, and the claimed decomposition agrees. -/
theorem c1_score_decomposition_witness :
    claimScoreC1Amended
      { id := 0, description := [], done := false, project := none, tags := none,
        metadata := [(keyCreateTime, .time 0), (keyDueTime, .time (3 * 86400))],
        timetracker := none } 0 = .ok ((3 : Nat) : Int) ∧ 0 ≤ ((3 : Nat) : Int) :=
  c1_score_decomposition.1
    { id := 0, description := [], done := false, project := none, tags := none,
      metadata := [(keyCreateTime, .time 0), (keyDueTime, .time (3 * 86400))],
      timetracker := none } 0 3 (by rfl)

/-- Claim C1 as stated is false at a concrete input: for a task whose
creation-time metadata lies 14 days in the future of `now` (reachable by
loading a stored file), the claimed sum contains the age term
`floor(-14 / 7) = -2` and totals −2, while `Task::score` computes 0 (the
`f32` product is negative and the `usize` cast saturates to 0); the claimed
sum is not even non-negative. -/
theorem c1_counterexample :
    Task.score
      { id := 0, description := [], done := false, project := none, tags := none,
        metadata := [(keyCreateTime, .time (14 * 86400))], timetracker := none } 0 = .ok 0 ∧
    claimScoreC1
      { id := 0, description := [], done := false, project := none, tags := none,
        metadata := [(keyCreateTime, .time (14 * 86400))], timetracker := none } 0 = .ok (-2) :=
  ⟨rfl, rfl⟩

/-- Claim C10: a well-typed task state whose metadata lacks the
`tsk-rs-task-create-time` entry (obtainable from syntactically valid YAML)
makes `Task::score` hit the `unwrap()` panic instead of a typed error, and
the panic propagates through every load (`from_yaml_string`, hence
`load_task` and `list_tasks`). -/
theorem c10_missing_create_time_panics :
    Task.score
      { id := 0, description := [], done := false, project := none, tags := none,
        metadata := [("x-fuu".toList, .raw "bar".toList)], timetracker := none } 0
      = .error .panicMissingCreateTime ∧
    Task.from_yaml_model
      { id := 0, description := [], done := false, project := none, tags := none,
        metadata := [("x-fuu".toList, .raw "bar".toList)], timetracker := none } 0
      = .error .panicMissingCreateTime :=
  ⟨rfl, rfl⟩

theorem not_running_iff (t : Task) : t.is_running = false ↔ openCount t = 0 := by
  cases h : t.timetracker with
  | none => simp [Task.is_running, openCount, h]
  | some tts =>
    simp [Task.is_running, openCount, h, List.any_eq_false, List.length_eq_zero,
      List.filter_eq_nil_iff]

theorem findOpenIdx_shift (l : List TimeTrack) (k : Nat) :
    findOpenIdx k l = (findOpenIdx 0 l).map (fun p => (p.1 + k, p.2)) := by
  induction l generalizing k with
  | nil => simp [findOpenIdx]
  | cons hd rest ih =>
    by_cases h : hd.end_time.isNone
    · simp [findOpenIdx, h]
    · rw [findOpenIdx, findOpenIdx, if_neg h, if_neg h, ih (k + 1), ih 1]
      cases findOpenIdx 0 rest with
      | none => rfl
      | some p => simp [Nat.add_assoc, Nat.add_comm 1 k]

theorem findOpenIdx_zero_some (l : List TimeTrack) (i : Nat) (tt : TimeTrack)
    (h : findOpenIdx 0 l = some (i, tt)) :
    i < l.length ∧ l.get? i = some tt ∧ tt.end_time = none := by
  induction l generalizing i with
  | nil => simp [findOpenIdx] at h
  | cons hd rest ih =>
    by_cases hopen : hd.end_time.isNone
    · rw [findOpenIdx, if_pos hopen] at h
      obtain ⟨rfl, rfl⟩ : 0 = i ∧ hd = tt := by
        simpa using h
      exact ⟨Nat.succ_pos _, rfl, by simpa [Option.isNone_iff_eq_none] using hopen⟩
    · rw [findOpenIdx, if_neg hopen, findOpenIdx_shift] at h
      cases hr : findOpenIdx 0 rest with
      | none => simp [hr] at h
      | some p =>
        rw [hr] at h
        obtain ⟨hi, htt⟩ : p.1 + 1 = i ∧ p.2 = tt := by simpa using h
        obtain ⟨h1, h2, h3⟩ := ih p.1 (htt ▸ hr.trans (by simp))
        refine ⟨?_, ?_, h3⟩
        · simp only [List.length_cons]
          omega
        · rw [← hi]
          simpa using h2

theorem findOpenIdx_none_iff (l : List TimeTrack) :
    findOpenIdx 0 l = none ↔ ∀ tt ∈ l, tt.end_time.isNone = false := by
  induction l with
  | nil => simp [findOpenIdx]
  | cons hd rest ih =>
    rw [findOpenIdx]
    by_cases hopen : hd.end_time.isNone
    · simp [hopen]
    · rw [if_neg hopen, findOpenIdx_shift]
      constructor
      · intro h
        have hn : findOpenIdx 0 rest = none := by
          cases hfr : findOpenIdx 0 rest with
          | none => rfl
          | some p => rw [hfr] at h; exact absurd h (by simp)
        intro tt htt
        rcases List.mem_cons.mp htt with rfl | hmem
        · exact Bool.eq_false_iff.mpr hopen
        · exact ih.mp hn tt hmem
      · intro hall
        rw [ih.mpr fun u hu => hall u (List.mem_cons_of_mem _ hu)]
        rfl

theorem openCount_set_closed (l : List TimeTrack) (i : Nat) (tt tt' : TimeTrack)
    (hget : l.get? i = some tt) (hopen : tt.end_time = none) (hclosed : tt'.end_time.isNone = false) :
    ((l.set i tt').filter (fun x => x.end_time.isNone)).length + 1
      = (l.filter (fun x => x.end_time.isNone)).length := by
  induction l generalizing i with
  | nil => simp at hget
  | cons hd rest ih =>
    cases i with
    | zero =>
      obtain rfl : hd = tt := by simpa using hget
      simp [List.set, List.filter, hopen, hclosed]
    | succ j =>
      have hj : rest.get? j = some tt := by simpa using hget
      have := ih j hj
      by_cases hh : hd.end_time.isNone <;>
        simp [List.set, List.filter, hh, this]

theorem start_ok_iff (t : Task) (now : Int) (ann : Option Str) (r : Task × TimeTrack) :
    t.start now ann = .ok r ↔
      t.done = false ∧ t.is_running = false ∧ r = startResult t now ann := by
  unfold Task.start startResult
  cases hdone : t.done <;> cases hrun : t.is_running <;> simp [eq_comm]

theorem stop_ok_char (t : Task) (now : Int) (r : Task × Option TimeTrack)
    (h : t.stop now = .ok r) :
    t.done = false ∧ t.is_running = true ∧
      ∃ i tt, t.current_timetrack = some (i, tt) ∧ tt.end_time = none ∧
        (t.timetracker.getD []).get? i = some tt ∧ r = stopResult t now i tt := by
  unfold Task.stop at h
  cases hdone : t.done with
  | true => simp [hdone] at h
  | false =>
  cases hrun : t.is_running with
  | false => simp [hdone, hrun] at h
  | true =>
    refine ⟨rfl, rfl, ?_⟩
    simp only [hdone, hrun, Bool.false_eq_true, if_false, if_true] at h
    cases hc : t.current_timetrack with
    | none => rw [hc] at h; exact absurd h (by simp)
    | some p =>
      obtain ⟨i, tt⟩ := p
      rw [hc] at h
      obtain ⟨hi, hget, hopen⟩ := findOpenIdx_zero_some _ _ _ hc
      refine ⟨i, tt, rfl, hopen, hget, ?_⟩
      unfold stopResult
      simpa [eq_comm, hdone] using h

theorem current_timetrack_isSome_of_running (t : Task) (h : t.is_running = true) :
    ∃ i tt, t.current_timetrack = some (i, tt) := by
  unfold Task.current_timetrack
  cases hf : findOpenIdx 0 (t.timetracker.getD []) with
  | some p => exact ⟨p.1, p.2, by simp⟩
  | none =>
    exfalso
    have hall := (findOpenIdx_none_iff _).mp hf
    unfold Task.is_running at h
    cases htt : t.timetracker with
    | none => rw [htt] at h; exact Bool.noConfusion h
    | some tts =>
      rw [htt] at h
      obtain ⟨u, hu, hopen⟩ := List.any_eq_true.mp h
      have := hall u (by simpa [htt] using hu)
      rw [this] at hopen
      exact Bool.noConfusion hopen

theorem stop_running_ok (t : Task) (now : Int) (hdone : t.done = false)
    (hrun : t.is_running = true) :
    ∃ i tt, t.current_timetrack = some (i, tt) ∧ t.stop now = .ok (stopResult t now i tt) := by
  obtain ⟨i, tt, hc⟩ := current_timetrack_isSome_of_running t hrun
  refine ⟨i, tt, hc, ?_⟩
  unfold Task.stop stopResult
  simp [hdone, hrun, hc]

/-- What a completed `mark_as_completed` call did, by case. -/
theorem mark_ok_char (t : Task) (n1 n2 : Int) (t' : Task)
    (h : t.mark_as_completed n1 n2 = .ok t') :
    (t.is_running = false ∧ t.done = false ∧ t' = completeResult t n2) ∨
    (t.is_running = false ∧ t.done = true ∧ t' = t) ∨
    (t.is_running = true ∧ ∃ i tt, t.current_timetrack = some (i, tt) ∧
       t.stop n1 = .ok (stopResult t n1 i tt) ∧
       t' = completeResult (stopResult t n1 i tt).1 n2) := by
  unfold Task.mark_as_completed at h
  unfold completeResult
  cases hrun : t.is_running with
  | false =>
    rw [hrun] at h
    cases hdone : t.done with
    | false =>
      left
      refine ⟨rfl, rfl, ?_⟩
      simp only [Bool.false_eq_true, if_false, except_bind_ok, pure, Except.pure, hdone,
        not_false_iff, if_true, Except.ok.injEq] at h
      exact h.symm
    | true =>
      right; left
      refine ⟨rfl, rfl, ?_⟩
      simp only [Bool.false_eq_true, if_false, except_bind_ok, pure, Except.pure, hdone,
        not_true, if_false, Except.ok.injEq] at h
      exact h.symm
  | true =>
    right; right
    rw [hrun, if_pos rfl] at h
    cases hstop : t.stop n1 with
    | error e => simp [hstop, except_bind_err] at h
    | ok rr =>
      obtain ⟨hdone, -, i, tt, hc, hopen, hget, hr⟩ := stop_ok_char t n1 rr hstop
      subst hr
      refine ⟨rfl, i, tt, hc, rfl, ?_⟩
      have hts : (stopResult t n1 i tt).1.done = false := hdone
      rw [hstop] at h
      simp only [except_bind_ok, pure, Except.pure, hts, Bool.false_eq_true, not_false_iff,
        if_true, Except.ok.injEq] at h
      exact h.symm

theorem openCount_startResult (t : Task) (now : Int) (ann : Option Str) :
    openCount (startResult t now ann).1 = openCount t + 1 := by
  simp [openCount, startResult, List.filter_append]

theorem running_openCount_ne (t : Task) (hrun : t.is_running = true) : openCount t ≠ 0 :=
  fun h0 => by rw [(not_running_iff t).mpr h0] at hrun; exact Bool.noConfusion hrun

theorem openCount_stopResult (t : Task) (now : Int) (i : Nat) (tt : TimeTrack)
    (hget : (t.timetracker.getD []).get? i = some tt) (hopen : tt.end_time = none) :
    openCount (stopResult t now i tt).1 + 1 = openCount t := by
  have : ({ tt with end_time := some now } : TimeTrack).end_time.isNone = false := rfl
  exact openCount_set_closed (t.timetracker.getD []) i tt _ hget hopen this

theorem openCount_completeResult (u : Task) (n2 : Int) :
    openCount (completeResult u n2) = openCount u := rfl

/-- The state invariant along every reachable task: at most one open
interval, and none once the task is done. -/
theorem reachable_inv (t : Task) (h : Reachable t) :
    openCount t ≤ 1 ∧ (t.done = true → openCount t = 0) := by
  induction h with
  | base t htt => simp [openCount, htt]
  | start t t' now ann tt _ hok ih =>
    obtain ⟨hdone, hrun, hr⟩ := (start_ok_iff t now ann _).mp hok
    have ht' : t' = (startResult t now ann).1 := congrArg Prod.fst hr
    have h0 : openCount t = 0 := (not_running_iff t).mp hrun
    have hd' : t'.done = false := by rw [ht']; exact hdone
    constructor
    · rw [ht', openCount_startResult, h0]
    · intro hc; rw [hd'] at hc; exact Bool.noConfusion hc
  | stop t t' now r _ hok ih =>
    obtain ⟨hdone, hrun, i, tt, hc, hopen, hget, hr⟩ := stop_ok_char t now _ hok
    have ht' : t' = (stopResult t now i tt).1 := congrArg Prod.fst hr
    have heq := openCount_stopResult t now i tt hget hopen
    have hne := running_openCount_ne t hrun
    have h0 : openCount t' = 0 := by rw [ht']; omega
    exact ⟨by omega, fun _ => h0⟩
  | complete t t' n1 n2 _ hok ih =>
    rcases mark_ok_char t n1 n2 t' hok with
      ⟨hrun, hdone, ht'⟩ | ⟨hrun, hdone, ht'⟩ | ⟨hrun, i, tt, hc, hstop, ht'⟩
    · have h0 : openCount t = 0 := (not_running_iff t).mp hrun
      have : openCount t' = 0 := by rw [ht', openCount_completeResult]; exact h0
      exact ⟨by omega, fun _ => this⟩
    · rw [ht']; exact ih
    · obtain ⟨-, -, i', tt', hc', hopen', hget', -⟩ := stop_ok_char t n1 _ hstop
      have hpair : (i, tt) = (i', tt') := by rw [hc] at hc'; exact Option.some.inj hc'
      obtain ⟨rfl, rfl⟩ : i = i' ∧ tt = tt' := by simpa using hpair
      have heq := openCount_stopResult t n1 i tt hget' hopen'
      have hne := running_openCount_ne t hrun
      have h0 : openCount t' = 0 := by
        rw [ht', openCount_completeResult]; omega
      exact ⟨by omega, fun _ => h0⟩

/-- Claim C3: along every task reachable from a newly created one by
`start`, `stop` and `mark_as_completed`, at most one timetracker interval is
open; `start` succeeds only when no interval is open and appends exactly one
open interval; `stop` on a state satisfying the invariant closes the single
open interval, leaving none. -/
theorem c3_at_most_one_open :
    (∀ t, Reachable t → openCount t ≤ 1) ∧
    (∀ (t : Task) (now : Int) (ann : Option Str) (r : Task × TimeTrack),
      t.start now ann = .ok r → openCount t = 0 ∧ openCount r.1 = openCount t + 1) ∧
    (∀ (t : Task) (now : Int) (r : Task × Option TimeTrack),
      openCount t ≤ 1 → t.stop now = .ok r → openCount r.1 = 0) := by
  refine ⟨fun t h => (reachable_inv t h).1, ?_, ?_⟩
  · intro t now ann r hok
    obtain ⟨hdone, hrun, hr⟩ := (start_ok_iff t now ann _).mp hok
    have h0 : openCount t = 0 := (not_running_iff t).mp hrun
    rw [hr, openCount_startResult]
    exact ⟨h0, rfl⟩
  · intro t now r hle hok
    obtain ⟨hdone, hrun, i, tt, hc, hopen, hget, hr⟩ := stop_ok_char t now _ hok
    have heq := openCount_stopResult t now i tt hget hopen
    have hne := running_openCount_ne t hrun
    rw [hr]
    omega

/-- Witness for `c3_at_most_one_open`: starting a fresh idle task yields one
open interval. -/
theorem c3_at_most_one_open_witness :
    openCount
      { id := 0, description := [], done := false, project := none, tags := none,
        metadata := [], timetracker := none } = 0 ∧
    openCount
      (startResult
        { id := 0, description := [], done := false, project := none, tags := none,
          metadata := [], timetracker := none } 5 none).1 =
      openCount
        { id := 0, description := [], done := false, project := none, tags := none,
          metadata := [], timetracker := none } + 1 :=
  c3_at_most_one_open.2.1
    { id := 0, description := [], done := false, project := none, tags := none,
      metadata := [], timetracker := none } 5 none _ (by rfl)

theorem get?_set_self {α : Type} (l : List α) (i : Nat) (a : α) (h : i < l.length) :
    (l.set i a).get? i = some a := by
  induction l generalizing i with
  | nil => simp at h
  | cons hd rest ih =>
    cases i with
    | zero => rfl
    | succ j =>
      have : j < rest.length := by simpa using h
      simpa [List.set] using ih j this

/-- Claim C4: `mark_as_completed` stops a running task first (the closed
interval's end `n1` precedes the completion timestamp `n2` under a monotone
clock), sets done and records the completion timestamp — but only the first
time: on an already-done task it is a no-op preserving the original
completion timestamp, and a second invocation never changes anything. -/
theorem c4_complete_idempotent :
    (∀ (t : Task) (n1 n2 : Int) (t' : Task), Reachable t → n1 ≤ n2 →
      t.mark_as_completed n1 n2 = .ok t' →
      t'.done = true ∧ t'.is_running = false ∧
      (t.done = false → mget t'.metadata keyCompletedTime = some (.time n2)) ∧
      (t.done = true → t' = t ∧
        mget t'.metadata keyCompletedTime = mget t.metadata keyCompletedTime) ∧
      (∀ i tt, t.is_running = true → t.current_timetrack = some (i, tt) →
        (t'.timetracker.getD []).get? i = some { tt with end_time := some n1 } ∧ n1 ≤ n2)) ∧
    (∀ (t : Task) (n1 n2 : Int) (t' : Task) (m1 m2 : Int) (t'' : Task), Reachable t →
      t.mark_as_completed n1 n2 = .ok t' → t'.mark_as_completed m1 m2 = .ok t'' →
      t'' = t') := by
  constructor
  · intro t n1 n2 t' hreach hmono hok
    rcases mark_ok_char t n1 n2 t' hok with
      ⟨hrun, hdone, ht'⟩ | ⟨hrun, hdone, ht'⟩ | ⟨hrun, i, tt, hc, hstop, ht'⟩
    · subst ht'
      refine ⟨rfl, hrun, fun _ => mget_minsert_self _ _ _, ?_, ?_⟩
      · intro hd; rw [hd] at hdone; exact Bool.noConfusion hdone
      · intro j u hr _; rw [hr] at hrun; exact Bool.noConfusion hrun
    · subst ht'
      refine ⟨hdone, hrun, ?_, fun _ => ⟨rfl, rfl⟩, ?_⟩
      · intro hd; rw [hd] at hdone; exact Bool.noConfusion hdone
      · intro j u hr _; rw [hr] at hrun; exact Bool.noConfusion hrun
    · subst ht'
      obtain ⟨hdonef, -, i', tt', hc', hopen', hget', -⟩ := stop_ok_char t n1 _ hstop
      have hpr : (i, tt) = (i', tt') := by rw [hc] at hc'; exact Option.some.inj hc'
      have hii : i = i' := congrArg Prod.fst hpr
      have httq : tt = tt' := congrArg Prod.snd hpr
      rw [← hii] at hget'
      rw [← httq] at hget' hopen'
      refine ⟨rfl, ?_, fun _ => mget_minsert_self _ _ _, ?_, ?_⟩
      · have h1 := reachable_inv t hreach
        have heq := openCount_stopResult t n1 i tt hget' hopen'
        have hne := running_openCount_ne t hrun
        have h0 : openCount (completeResult (stopResult t n1 i tt).1 n2) = 0 := by
          rw [openCount_completeResult]; omega
        exact (not_running_iff _).mpr h0
      · intro hd; rw [hd] at hdonef; exact Bool.noConfusion hdonef
      · intro j u _ hcj
        have hpj : (i, tt) = (j, u) := by rw [hc] at hcj; exact Option.some.inj hcj
        have hij : i = j := congrArg Prod.fst hpj
        have htu : tt = u := congrArg Prod.snd hpj
        subst hij
        subst htu
        refine ⟨?_, hmono⟩
        obtain ⟨hile, -⟩ := List.get?_eq_some.mp hget'
        show ((t.timetracker.getD []).set i { tt with end_time := some n1 }).get? i
          = some { tt with end_time := some n1 }
        exact get?_set_self _ _ _ hile
  · intro t n1 n2 t' m1 m2 t'' hreach hok1 hok2
    have hreach' : Reachable t' := Reachable.complete t t' n1 n2 hreach hok1
    have hdone' : t'.done = true := by
      rcases mark_ok_char t n1 n2 t' hok1 with ⟨-, -, ht'⟩ | ⟨-, hd, ht'⟩ | ⟨-, i, tt, -, -, ht'⟩
      · rw [ht']; rfl
      · rw [ht']; exact hd
      · rw [ht']; rfl
    have hrun' : t'.is_running = false := by
      have h0 := (reachable_inv t' hreach').2 hdone'
      exact (not_running_iff t').mpr h0
    rcases mark_ok_char t' m1 m2 t'' hok2 with ⟨-, hd, -⟩ | ⟨-, -, ht''⟩ | ⟨hr, -⟩
    · rw [hdone'] at hd; exact Bool.noConfusion hd
    · exact ht''
    · rw [hrun'] at hr; exact Bool.noConfusion hr

/-- Witness for `c4_complete_idempotent`: completing a freshly started
(running) task at times 7 and 9 closes the interval at 7 and records 9. -/
theorem c4_complete_idempotent_witness :
    ({ id := 0, description := [], done := true, project := none, tags := none,
       metadata := [(keyCompletedTime, MetaValue.time 9)],
       timetracker := some [{ start_time := 5, end_time := some 7, annot := none }] } : Task).done
      = true ∧
    ({ id := 0, description := [], done := true, project := none, tags := none,
       metadata := [(keyCompletedTime, MetaValue.time 9)],
       timetracker := some [{ start_time := 5, end_time := some 7, annot := none }] } : Task).is_running
      = false ∧
    (({ id := 0, description := [], done := false, project := none, tags := none,
        metadata := [],
        timetracker := some [{ start_time := 5, end_time := none, annot := none }] } : Task).done
        = false →
      mget [(keyCompletedTime, MetaValue.time 9)] keyCompletedTime = some (MetaValue.time 9)) ∧
    (({ id := 0, description := [], done := false, project := none, tags := none,
        metadata := [],
        timetracker := some [{ start_time := 5, end_time := none, annot := none }] } : Task).done
        = true →
      ({ id := 0, description := [], done := true, project := none, tags := none,
         metadata := [(keyCompletedTime, MetaValue.time 9)],
         timetracker := some [{ start_time := 5, end_time := some 7, annot := none }] } : Task)
        = { id := 0, description := [], done := false, project := none, tags := none,
            metadata := [],
            timetracker := some [{ start_time := 5, end_time := none, annot := none }] } ∧
      mget [(keyCompletedTime, MetaValue.time 9)] keyCompletedTime = mget [] keyCompletedTime) ∧
    (∀ (i : Nat) (tt : TimeTrack),
      ({ id := 0, description := [], done := false, project := none, tags := none,
         metadata := [],
         timetracker := some [{ start_time := 5, end_time := none, annot := none }] } : Task).is_running
        = true →
      ({ id := 0, description := [], done := false, project := none, tags := none,
         metadata := [],
         timetracker := some [{ start_time := 5, end_time := none, annot := none }] } : Task).current_timetrack
        = some (i, tt) →
      ((some [{ start_time := 5, end_time := some 7, annot := none }] :
          Option (List TimeTrack)).getD []).get? i
        = some { tt with end_time := some (7 : Int) } ∧ (7 : Int) ≤ 9) :=
  c4_complete_idempotent.1
    { id := 0, description := [], done := false, project := none, tags := none,
      metadata := [],
      timetracker := some [{ start_time := 5, end_time := none, annot := none }] } 7 9
    { id := 0, description := [], done := true, project := none, tags := none,
      metadata := [(keyCompletedTime, MetaValue.time 9)],
      timetracker := some [{ start_time := 5, end_time := some 7, annot := none }] }
    (Reachable.start
      { id := 0, description := [], done := false, project := none, tags := none,
        metadata := [], timetracker := none }
      { id := 0, description := [], done := false, project := none, tags := none,
        metadata := [],
        timetracker := some [{ start_time := 5, end_time := none, annot := none }] }
      5 none { start_time := 5, end_time := none, annot := none }
      (Reachable.base _ rfl) (by rfl))
    (by decide) (by rfl)

/-- Claim C5: the error and success behavior of `start` and `stop` in each
state: on a done task both fail with TaskAlreadyCompleted; on a running
not-done task `start` fails with TaskAlreadyRunning and `stop` closes the
open interval; on an idle not-done task `start` appends the fresh open
interval {start=now, end=none, annotation} and `stop` fails with
TaskNotRunning. -/
theorem c5_start_stop_guards :
    ∀ (t : Task) (now : Int) (ann : Option Str),
      (t.done = true →
        t.start now ann = .error .taskAlreadyCompleted ∧
        t.stop now = .error .taskAlreadyCompleted) ∧
      (t.done = false → t.is_running = true →
        t.start now ann = .error .taskAlreadyRunning ∧
        ∃ i tt, t.current_timetrack = some (i, tt) ∧ t.stop now = .ok (stopResult t now i tt)) ∧
      (t.done = false → t.is_running = false →
        t.start now ann = .ok (startResult t now ann) ∧
        t.stop now = .error .taskNotRunning) := by
  intro t now ann
  refine ⟨?_, ?_, ?_⟩
  · intro hd
    constructor
    · unfold Task.start; simp [hd]
    · unfold Task.stop; simp [hd]
  · intro hd hr
    constructor
    · unfold Task.start; simp [hd, hr]
    · exact stop_running_ok t now hd hr
  · intro hd hr
    constructor
    · exact (start_ok_iff t now ann _).mpr ⟨hd, hr, rfl⟩
    · unfold Task.stop; simp [hd, hr]

/-- Witness for `c5_start_stop_guards`: an idle fresh task starts
successfully and cannot be stopped. -/
theorem c5_start_stop_guards_witness :
    ({ id := 0, description := [], done := false, project := none, tags := none,
       metadata := [], timetracker := none } : Task).start 5 none
      = .ok (startResult
          { id := 0, description := [], done := false, project := none, tags := none,
            metadata := [], timetracker := none } 5 none) ∧
    ({ id := 0, description := [], done := false, project := none, tags := none,
       metadata := [], timetracker := none } : Task).stop 5 = .error .taskNotRunning :=
  (c5_start_stop_guards
    { id := 0, description := [], done := false, project := none, tags := none,
      metadata := [], timetracker := none } 5 none).2.2 rfl rfl

theorem asciiLowerChar_eq_self (c : Char) (h : ¬ (65 ≤ c.toNat ∧ c.toNat ≤ 90)) :
    asciiLowerChar c = c := by
  unfold asciiLowerChar
  rw [if_neg]
  simp only [Bool.and_eq_true, decide_eq_true_eq, not_and]
  intro h1 h2
  exact h ⟨h1, h2⟩

theorem asciiLowerChar_toNat_upper (c : Char) (h65 : 65 ≤ c.toNat) (h90 : c.toNat ≤ 90) :
    (asciiLowerChar c).toNat = c.toNat + 32 := by
  unfold asciiLowerChar
  rw [if_pos]
  · unfold Char.ofNat
    rw [dif_pos (Or.inl (by omega))]
    rfl
  · simp only [Bool.and_eq_true, decide_eq_true_eq]
    exact ⟨h65, h90⟩

theorem asciiLowerChar_idem (c : Char) : asciiLowerChar (asciiLowerChar c) = asciiLowerChar c := by
  by_cases h : 65 ≤ c.toNat ∧ c.toNat ≤ 90
  · have ht := asciiLowerChar_toNat_upper c h.1 h.2
    exact asciiLowerChar_eq_self _ (by omega)
  · rw [asciiLowerChar_eq_self c h, asciiLowerChar_eq_self c h]

theorem asciiLower_idem (s : Str) : asciiLower (asciiLower s) = asciiLower s := by
  unfold asciiLower
  rw [List.map_map]
  exact List.map_congr_left fun c _ => asciiLowerChar_idem c

theorem mem_minsert {m : MMap} {k : Str} {v : MetaValue} {p : Str × MetaValue}
    (h : p ∈ minsert m k v) : p ∈ m ∨ p.1 = k := by
  induction m with
  | nil =>
    unfold minsert at h
    rw [List.mem_singleton] at h
    subst h
    exact Or.inr rfl
  | cons hd tl ih =>
    obtain ⟨k', v'⟩ := hd
    unfold minsert at h
    by_cases hk : k' = k
    · rw [if_pos hk, List.mem_cons] at h
      rcases h with rfl | hm
      · exact Or.inr rfl
      · exact Or.inl (List.mem_cons_of_mem _ hm)
    · rw [if_neg hk, List.mem_cons] at h
      rcases h with rfl | hm
      · exact Or.inl (List.mem_cons_self _ _)
      · rcases ih hm with hm' | hk'
        · exact Or.inl (List.mem_cons_of_mem _ hm')
        · exact Or.inr hk'

theorem foldlM_compile_append (es1 es2 : List Expression) (st0 st : CompileSt)
    (h : es1.foldlM compileStep st0 = .ok st) :
    (es1 ++ es2).foldlM compileStep st0 = es2.foldlM compileStep st := by
  induction es1 generalizing st0 with
  | nil =>
    simp only [List.foldlM_nil, pure, Except.pure, Except.ok.injEq] at h
    subst h
    simp
  | cons e rest ih =>
    rw [List.foldlM_cons] at h
    rw [List.cons_append, List.foldlM_cons]
    cases hs : compileStep st0 e with
    | error err => rw [hs] at h; simp [except_bind_err] at h
    | ok st1 =>
      rw [hs] at h
      rw [except_bind_ok] at h ⊢
      exact ih st1 h

theorem compileStep_keys (st st' : CompileSt) (e : Expression)
    (h : compileStep st e = .ok st')
    (h0 : ∀ k v, (k, v) ∈ st.metadata → asciiLower k = k) :
    ∀ k v, (k, v) ∈ st'.metadata → asciiLower k = k := by
  cases e <;> simp only [compileStep] at h <;> split_ifs at h <;>
    first
      | exact Except.noConfusion h
      | (simp only [Except.ok.injEq] at h; subst h; exact h0)
      | (simp only [Except.ok.injEq] at h
         subst h
         intro k v hm
         rcases mem_minsert hm with hm' | hk
         exacts [h0 k v hm', by rw [show k = _ from hk]; first | exact asciiLower_idem _ | decide])

theorem compile_go_keys (es : List Expression) (st0 st : CompileSt)
    (h : es.foldlM compileStep st0 = .ok st)
    (h0 : ∀ k v, (k, v) ∈ st0.metadata → asciiLower k = k) :
    ∀ k v, (k, v) ∈ st.metadata → asciiLower k = k := by
  induction es generalizing st0 with
  | nil =>
    simp only [List.foldlM_nil, pure, Except.pure, Except.ok.injEq] at h
    subst h
    exact h0
  | cons e rest ih =>
    rw [List.foldlM_cons] at h
    cases hs : compileStep st0 e with
    | error err => rw [hs] at h; simp [except_bind_err] at h
    | ok st1 =>
      rw [hs, except_bind_ok] at h
      exact ih st1 h (compileStep_keys st0 st1 e hs h0)

theorem pchar_some (c : Char) (input r : Str) (h : pchar c input = some r) :
    r.length < input.length := by
  cases input with
  | nil => exact Option.noConfusion h
  | cons x rest =>
    simp only [pchar] at h
    split_ifs at h
    simp only [Option.some.injEq] at h
    subst h
    simp

theorem takeWhile1_some (p : Char → Bool) (input r w : Str)
    (h : takeWhile1 p input = some (r, w)) : r.length < input.length ∧ w ≠ [] := by
  simp only [takeWhile1] at h
  split_ifs at h with he
  simp only [Option.some.injEq, Prod.mk.injEq] at h
  obtain ⟨h1, h2⟩ := h
  subst h1
  refine ⟨?_, by rw [← h2]; exact he⟩
  cases input with
  | nil => exact absurd rfl he
  | cons x rest =>
    rw [List.takeWhile] at he
    cases hp : p x with
    | false => rw [hp] at he; exact absurd rfl he
    | true =>
      rw [List.dropWhile, hp]
      exact Nat.lt_succ_of_le (List.dropWhile_sublist _).length_le

theorem ptagLit_some (t input r : Str) (h : ptagLit t input = some r) :
    r.length ≤ input.length := by
  unfold ptagLit at h
  split_ifs at h
  simp only [Option.some.injEq] at h
  subst h
  simp

theorem alt2_some (p q : Str → Option Str) (input r : Str) (h : alt2 p q input = some r) :
    p input = some r ∨ q input = some r := by
  unfold alt2 at h
  cases hp : p input with
  | some r1 => rw [hp] at h; exact Or.inl h
  | none => rw [hp] at h; exact Or.inr h

theorem word_some (input r w : Str) (h : word input = some (r, w)) :
    r.length < input.length ∧ w ≠ [] :=
  takeWhile1_some nonws_char input r w h

theorem meta_word_some (input r w : Str) (h : meta_word input = some (r, w)) :
    r.length < input.length ∧ w ≠ [] :=
  takeWhile1_some allowed_meta_character input r w h

theorem metadata_pair_some (input r : Str) (kv : Str × Str)
    (h : metadata_pair input = some (r, kv)) : r.length < input.length := by
  unfold metadata_pair at h
  cases h1 : meta_word input with
  | none => rw [h1] at h; exact Option.noConfusion h
  | some p1 =>
    obtain ⟨r1, w1⟩ := p1
    rw [h1] at h
    simp only [opt_bind_some] at h
    cases h2 : pchar '=' r1 with
    | none => rw [h2] at h; exact Option.noConfusion h
    | some r2 =>
      rw [h2] at h
      simp only [opt_bind_some] at h
      cases h3 : meta_word r2 with
      | none => rw [h3] at h; exact Option.noConfusion h
      | some p3 =>
        obtain ⟨r3, w3⟩ := p3
        rw [h3] at h
        simp only [opt_bind_some, Option.some.injEq, Prod.mk.injEq] at h
        have e1 := (meta_word_some input r1 w1 h1).1
        have e2 := pchar_some '=' r1 r2 h2
        have e3 := (meta_word_some r2 r3 w3 h3).1
        rw [← h.1]
        omega

theorem alt2_ptag_le (t1 t2 input r : Str)
    (h : alt2 (ptagLit t1) (ptagLit t2) input = some r) : r.length ≤ input.length := by
  rcases alt2_some _ _ _ _ h with h | h <;> exact ptagLit_some _ _ _ h

theorem alt4_ptag_le (t1 t2 t3 t4 input r : Str)
    (h : alt2 (alt2 (ptagLit t1) (ptagLit t2)) (alt2 (ptagLit t3) (ptagLit t4)) input
      = some r) : r.length ≤ input.length := by
  rcases alt2_some _ _ _ _ h with h | h <;> exact alt2_ptag_le _ _ _ _ h

theorem pre_word_some (pre : Str → Option Str) (input r w : Str)
    (hpre : ∀ r0, pre input = some r0 → r0.length ≤ input.length)
    (h : (do
      let r0 ← pre input
      word r0) = some (r, w)) :
    r.length < input.length ∧ w ≠ [] := by
  cases h1 : pre input with
  | none => rw [h1] at h; exact Option.noConfusion h
  | some r0 =>
    rw [h1] at h
    simp only [opt_bind_some] at h
    obtain ⟨hl, hw⟩ := word_some r0 r w h
    exact ⟨lt_of_lt_of_le hl (hpre r0 h1), hw⟩

theorem pre_pair_some (pre : Str → Option Str) (input r : Str) (kv : Str × Str)
    (hpre : ∀ r0, pre input = some r0 → r0.length ≤ input.length)
    (h : (do
      let r0 ← pre input
      metadata_pair r0) = some (r, kv)) :
    r.length < input.length := by
  cases h1 : pre input with
  | none => rw [h1] at h; exact Option.noConfusion h
  | some r0 =>
    rw [h1] at h
    simp only [opt_bind_some] at h
    exact lt_of_lt_of_le (metadata_pair_some r0 r kv h) (hpre r0 h1)

theorem directive_some_facts (input rem : Str) (pr : Proto)
    (h : directive input = some (rem, pr)) :
    rem.length < input.length ∧ (∀ p, pr = Proto.proj p → p ≠ []) := by
  unfold directive at h
  cases e1 : hashtag input with
  | some v =>
    rw [e1] at h
    obtain ⟨vr, vs⟩ := v
    simp only [Option.some.injEq, Prod.mk.injEq] at h
    obtain ⟨h1, h2⟩ := h
    subst h1; subst h2
    have hf := pre_word_some (pchar '#') input vr vs
      (fun r0 h0 => le_of_lt (pchar_some '#' input r0 h0)) e1
    exact ⟨hf.1, fun p hp => Proto.noConfusion hp⟩
  | none =>
  rw [e1] at h
  cases e2 : hashtag2 input with
  | some v =>
    rw [e2] at h
    obtain ⟨vr, vs⟩ := v
    simp only [Option.some.injEq, Prod.mk.injEq] at h
    obtain ⟨h1, h2⟩ := h
    subst h1; subst h2
    have hf := pre_word_some _ input vr vs (fun r0 h0 => alt2_ptag_le _ _ _ _ h0) e2
    exact ⟨hf.1, fun p hp => Proto.noConfusion hp⟩
  | none =>
  rw [e2] at h
  cases e3 : projectP input with
  | some v =>
    rw [e3] at h
    obtain ⟨vr, vs⟩ := v
    simp only [Option.some.injEq, Prod.mk.injEq] at h
    obtain ⟨h1, h2⟩ := h
    subst h1; subst h2
    have hf := pre_word_some (pchar '@') input vr vs
      (fun r0 h0 => le_of_lt (pchar_some '@' input r0 h0)) e3
    refine ⟨hf.1, fun p hp => ?_⟩
    have : vs = p := Proto.proj.inj hp
    rw [← this]
    exact hf.2
  | none =>
  rw [e3] at h
  cases e4 : project2 input with
  | some v =>
    rw [e4] at h
    obtain ⟨vr, vs⟩ := v
    simp only [Option.some.injEq, Prod.mk.injEq] at h
    obtain ⟨h1, h2⟩ := h
    subst h1; subst h2
    have hf := pre_word_some _ input vr vs (fun r0 h0 => alt4_ptag_le _ _ _ _ _ _ h0) e4
    refine ⟨hf.1, fun p hp => ?_⟩
    have : vs = p := Proto.proj.inj hp
    rw [← this]
    exact hf.2
  | none =>
  rw [e4] at h
  cases e5 : metadataP input with
  | some v =>
    rw [e5] at h
    obtain ⟨vr, vkv⟩ := v
    simp only [Option.some.injEq, Prod.mk.injEq] at h
    obtain ⟨h1, h2⟩ := h
    subst h1; subst h2
    have hf := pre_pair_some (pchar '%') input vr vkv
      (fun r0 h0 => le_of_lt (pchar_some '%' input r0 h0)) e5
    exact ⟨hf, fun p hp => Proto.noConfusion hp⟩
  | none =>
  rw [e5] at h
  cases e6 : metadata2 input with
  | some v =>
    rw [e6] at h
    obtain ⟨vr, vkv⟩ := v
    simp only [Option.some.injEq, Prod.mk.injEq] at h
    obtain ⟨h1, h2⟩ := h
    subst h1; subst h2
    have hf := pre_pair_some _ input vr vkv (fun r0 h0 => alt2_ptag_le _ _ _ _ h0) e6
    exact ⟨hf, fun p hp => Proto.noConfusion hp⟩
  | none =>
  rw [e6] at h
  cases e7 : priorityP input with
  | some v =>
    rw [e7] at h
    obtain ⟨vr, vs⟩ := v
    simp only [Option.some.injEq, Prod.mk.injEq] at h
    obtain ⟨h1, h2⟩ := h
    subst h1; subst h2
    have hf := pre_word_some _ input vr vs (fun r0 h0 => alt2_ptag_le _ _ _ _ h0) e7
    exact ⟨hf.1, fun p hp => Proto.noConfusion hp⟩
  | none =>
  rw [e7] at h
  cases e8 : due_date input with
  | some v =>
    rw [e8] at h
    obtain ⟨vr, vs⟩ := v
    simp only [Option.some.injEq, Prod.mk.injEq] at h
    obtain ⟨h1, h2⟩ := h
    subst h1; subst h2
    have hf := pre_word_some _ input vr vs (fun r0 h0 => alt4_ptag_le _ _ _ _ _ _ h0) e8
    exact ⟨hf.1, fun p hp => Proto.noConfusion hp⟩
  | none =>
    rw [e8] at h
    exact Option.noConfusion h

theorem directive_nil : directive [] = none := rfl

theorem findDirectiveAux_some (s : Str) (k i : Nat) (rem : Str) (pr : Proto)
    (h : findDirectiveAux s k = some (i, rem, pr)) :
    k ≤ i ∧ i - k < s.length ∧ directive (s.drop (i - k)) = some (rem, pr) ∧
      ∀ j, j < i - k → directive (s.drop j) = none := by
  induction s generalizing k with
  | nil => exact Option.noConfusion h
  | cons c rest ih =>
    rw [findDirectiveAux] at h
    cases hd : directive (c :: rest) with
    | some v =>
      rw [hd] at h
      simp only [Option.some.injEq] at h
      obtain ⟨rfl, rfl⟩ : k = i ∧ v = (rem, pr) := by
        have := Prod.mk.injEq k v i (rem, pr) ▸ h
        exact ⟨this.1, this.2⟩
      refine ⟨le_refl _, by simp, ?_, ?_⟩
      · simpa using hd
      · intro j hj; omega
    | none =>
      rw [hd] at h
      obtain ⟨hk, hlen, hdir, hall⟩ := ih (k + 1) h
      have hik : 1 ≤ i - k := by omega
      refine ⟨by omega, ?_, ?_, ?_⟩
      · simp only [List.length_cons]; omega
      · have : (c :: rest).drop (i - k) = rest.drop (i - k - 1) := by
          cases hik' : i - k with
          | zero => omega
          | succ m => simp [hik']
        rw [this]
        have : i - k - 1 = i - (k + 1) := by omega
        rw [this]
        exact hdir
      · intro j hj
        cases j with
        | zero => simpa using hd
        | succ m =>
          have : (c :: rest).drop (m + 1) = rest.drop m := by simp
          rw [this]
          exact hall m (by omega)

theorem findDirectiveAux_none (s : Str) (k : Nat) (h : findDirectiveAux s k = none) :
    ∀ j, directive (s.drop j) = none := by
  induction s generalizing k with
  | nil => intro j; simp [directive_nil]
  | cons c rest ih =>
    rw [findDirectiveAux] at h
    cases hd : directive (c :: rest) with
    | some v => rw [hd] at h; exact Option.noConfusion h
    | none =>
      rw [hd] at h
      intro j
      cases j with
      | zero => simpa using hd
      | succ m =>
        have : (c :: rest).drop (m + 1) = rest.drop m := by simp
        rw [this]
        exact ih (k + 1) h m

theorem findDirective_some (s : Str) (i : Nat) (rem : Str) (pr : Proto)
    (h : findDirective s = some (i, rem, pr)) :
    i < s.length ∧ directive (s.drop i) = some (rem, pr) ∧
      ∀ j, j < i → directive (s.drop j) = none := by
  obtain ⟨-, h1, h2, h3⟩ := findDirectiveAux_some s 0 i rem pr h
  simpa using ⟨h1, h2, h3⟩

theorem findDirective_of_least (s : Str) (i : Nat) (rem : Str) (pr : Proto)
    (hdir : directive (s.drop i) = some (rem, pr))
    (hleast : ∀ j, j < i → directive (s.drop j) = none) :
    findDirective s = some (i, rem, pr) := by
  cases hf : findDirective s with
  | none =>
    have := findDirectiveAux_none s 0 hf i
    rw [this] at hdir
    exact Option.noConfusion hdir
  | some v =>
    obtain ⟨i', rem', pr'⟩ := v
    obtain ⟨hlen, hdir', hall⟩ := findDirective_some s i' rem' pr' hf
    rcases Nat.lt_trichotomy i i' with hlt | heq | hgt
    · rw [hall i hlt] at hdir; exact Option.noConfusion hdir
    · subst heq
      rw [hdir] at hdir'
      simp only [Option.some.injEq, Prod.mk.injEq] at hdir'
      rw [hdir'.1, hdir'.2]
    · rw [hleast i' hgt] at hdir'; exact Option.noConfusion hdir'

theorem parse_inlineF_congr (f1 f2 : Nat) (input : Str)
    (h1 : input.length < f1) (h2 : input.length < f2) :
    parse_inlineF f1 input = parse_inlineF f2 input := by
  induction f1 generalizing input f2 with
  | zero => omega
  | succ g1 ih =>
    cases f2 with
    | zero => omega
    | succ g2 =>
      rw [parse_inlineF, parse_inlineF]
      by_cases he : input = []
      · simp [he]
      · rw [if_neg he, if_neg he]
        cases hf : findDirective input with
        | none => rfl
        | some v =>
          obtain ⟨i, rem, pr⟩ := v
          obtain ⟨hlen, hdir, -⟩ := findDirective_some input i rem pr hf
          have hdl : (input.drop i).length ≤ input.length := by
            rw [List.length_drop]; omega
          have hrem : rem.length < input.length :=
            lt_of_lt_of_le (directive_some_facts _ rem pr hdir).1 hdl
          simp only [ih g2 rem (by omega) (by omega)]

theorem findDirective_nil : findDirective [] = none := rfl

theorem parse_inline_nil : parse_inline [] = [] := rfl

theorem parse_inline_step (input : Str) (i : Nat) (rem : Str) (pr : Proto)
    (hf : findDirective input = some (i, rem, pr)) :
    parse_inline input =
      (if trimStr (input.take i) = [] then [pr] else [.desc (trimStr (input.take i)), pr])
        ++ parse_inline rem := by
  have hne : input ≠ [] := by
    intro he
    rw [he, findDirective_nil] at hf
    exact Option.noConfusion hf
  obtain ⟨hlen, hdir, -⟩ := findDirective_some input i rem pr hf
  have hrem : rem.length < input.length := by
    have := (directive_some_facts _ _ _ hdir).1
    rw [List.length_drop] at this
    omega
  unfold parse_inline
  rw [parse_inlineF, if_neg hne, hf]
  simp only [parse_inlineF_congr input.length (rem.length + 1) rem (by omega) (by omega)]

theorem parse_inline_last (input : Str) (hne : input ≠ []) (hf : findDirective input = none) :
    parse_inline input = [.desc (trimStr input)] := by
  unfold parse_inline
  rw [parse_inlineF, if_neg hne, hf]

theorem parse_inlineF_proj_ne_nil (fuel : Nat) (input p : Str)
    (h : Proto.proj p ∈ parse_inlineF fuel input) : p ≠ [] := by
  induction fuel generalizing input with
  | zero => simp [parse_inlineF] at h
  | succ f ih =>
    rw [parse_inlineF] at h
    by_cases hne : input = []
    · rw [if_pos hne] at h; simp at h
    · rw [if_neg hne] at h
      cases hf : findDirective input with
      | none => rw [hf] at h; simp at h
      | some v =>
        obtain ⟨i, rem, pr⟩ := v
        rw [hf] at h
        simp only [List.mem_append] at h
        have hfacts := directive_some_facts _ _ _ (findDirective_some input i rem pr hf).2.1
        rcases h with h | h
        · split_ifs at h <;>
            simp only [List.mem_cons, List.mem_singleton, List.not_mem_nil, or_false] at h
          · exact hfacts.2 p h.symm
          · rcases h with h | h
            · exact Proto.noConfusion h
            · exact hfacts.2 p h.symm
        · exact ih rem h

theorem parse_inline_proj_ne_nil (input p : Str)
    (h : Proto.proj p ∈ parse_inline input) : p ≠ [] :=
  parse_inlineF_proj_ne_nil _ input p h

theorem protosToExprs_mem (ps : List Proto) (es : List Expression)
    (h : protosToExprs ps = .ok es) (e : Expression) (hmem : e ∈ es) :
    ∃ pr ∈ ps, fromPrototype pr = .ok e := by
  induction ps generalizing es with
  | nil =>
    simp only [protosToExprs, Except.ok.injEq] at h
    subst h
    simp at hmem
  | cons q rest ih =>
    rw [protosToExprs] at h
    cases h1 : fromPrototype q with
    | error err => rw [h1] at h; exact Except.noConfusion h
    | ok e1 =>
      rw [h1, except_bind_ok] at h
      cases h2 : protosToExprs rest with
      | error err => rw [h2] at h; exact Except.noConfusion h
      | ok es1 =>
        rw [h2, except_bind_ok] at h
        simp only [pure, Except.pure, Except.ok.injEq] at h
        subst h
        rcases List.mem_cons.mp hmem with rfl | hm
        · exact ⟨q, List.mem_cons_self _ _, h1⟩
        · obtain ⟨pr, hpr, hok⟩ := ih es1 h2 hm
          exact ⟨pr, List.mem_cons_of_mem _ hpr, hok⟩

theorem parse_task_project_ne_nil (input : Str) (es : List Expression)
    (h : parse_task input = .ok es) (p : Str) (hmem : Expression.project p ∈ es) : p ≠ [] := by
  obtain ⟨pr, hpr, hok⟩ := protosToExprs_mem (parse_inline input) es h _ hmem
  cases pr <;> simp only [fromPrototype] at hok
  case proj s =>
    simp only [Except.ok.injEq, Expression.project.injEq] at hok
    rw [← hok]
    exact parse_inline_proj_ne_nil input s hpr
  all_goals first
    | exact Except.noConfusion hok
    | (simp only [Except.ok.injEq] at hok; exact Expression.noConfusion hok)
    | (split at hok <;>
        first
          | exact Except.noConfusion hok
          | (simp only [Except.ok.injEq] at hok; exact Expression.noConfusion hok))

/-- Claim C7: when compiling a descriptor every metadata key is (ASCII)
lower-cased; a lower-cased key without the `"x-"` marker fails with
MetadataPrefixInvalid; a key repeated within the same descriptor fails with
IdenticalMetadataKeyNotAllowed; and this uniqueness check is parse-time
only — the explicit `set_characteristic` operation overwrites an existing
metadata key without any error. -/
theorem c7_metadata_rules :
    (∀ (es : List Expression) (st : CompileSt), compileExprs es = .ok st →
      ∀ k v, (k, v) ∈ st.metadata → asciiLower k = k) ∧
    (∀ (pre : List Expression) (k v : Str) (post : List Expression) (st : CompileSt),
      compileExprs pre = .ok st → ¬ xPre.isPrefixOf (asciiLower k) = true →
      compileExprs (pre ++ Expression.metaKV k v :: post)
        = .error (.metadataPrefixInvalid (asciiLower k))) ∧
    (∀ (pre : List Expression) (k v : Str) (post : List Expression) (st : CompileSt),
      compileExprs pre = .ok st → xPre.isPrefixOf (asciiLower k) = true →
      mcontains st.metadata (asciiLower k) = true →
      compileExprs (pre ++ Expression.metaKV k v :: post)
        = .error (.identicalMetadataKeyNotAllowed (asciiLower k))) ∧
    (∀ (t : Task) (k v : Str),
      (t.set_characteristic none none none none (some [⟨k, v⟩])).1.metadata
        = minsert t.metadata k (.raw v) ∧
      (t.set_characteristic none none none none (some [⟨k, v⟩])).2 = true) := by
  refine ⟨?_, ?_, ?_, ?_⟩
  · intro es st h
    exact compile_go_keys es compileInit st h (by intro k v hm; simp [compileInit] at hm)
  · intro pre k v post st h hpre
    unfold compileExprs at h ⊢
    rw [foldlM_compile_append pre _ compileInit st h, List.foldlM_cons]
    have : compileStep st (.metaKV k v) = .error (.metadataPrefixInvalid (asciiLower k)) := by
      simp only [compileStep]
      rw [if_pos hpre]
    rw [this, except_bind_err]
  · intro pre k v post st h hpre hdup
    unfold compileExprs at h ⊢
    rw [foldlM_compile_append pre _ compileInit st h, List.foldlM_cons]
    have : compileStep st (.metaKV k v)
        = .error (.identicalMetadataKeyNotAllowed (asciiLower k)) := by
      simp only [compileStep]
      rw [if_neg (by simp [hpre]), if_pos hdup]
    rw [this, except_bind_err]
  · intro t k v
    exact ⟨rfl, rfl⟩

/-- Witness for `c7_metadata_rules`: the descriptor metadata key `"foo"`
(no `"x-"` marker) is rejected. -/
theorem c7_metadata_rules_witness :
    compileExprs ([] ++ Expression.metaKV "foo".toList "bar".toList :: [])
      = .error (.metadataPrefixInvalid (asciiLower "foo".toList)) :=
  c7_metadata_rules.2.1 [] "foo".toList "bar".toList [] compileInit (by rfl) (by decide)

theorem compileStep_project_eq (st st' : CompileSt) (e : Expression)
    (h : compileStep st e = .ok st') (hne : ∀ p, e ≠ Expression.project p) :
    st'.project = st.project := by
  cases e <;> simp only [compileStep] at h <;> split_ifs at h <;>
    first
      | exact Except.noConfusion h
      | exact absurd rfl (hne _)
      | (simp only [Except.ok.injEq] at h; subst h; rfl)

theorem compileStep_project_ok (st st' : CompileSt) (q : Str)
    (h : compileStep st (Expression.project q) = .ok st') :
    st.project = [] ∧ st'.project = q := by
  simp only [compileStep] at h
  split_ifs at h with h1
  simp only [Except.ok.injEq] at h
  subst h
  exact ⟨not_ne_iff.mp h1, rfl⟩

theorem compile_go_project_count (es : List Expression) (st0 st : CompileSt)
    (h : es.foldlM compileStep st0 = .ok st)
    (hne : ∀ p, Expression.project p ∈ es → p ≠ []) :
    (es.countP fun e => match e with | Expression.project _ => true | _ => false)
      + (if st0.project = [] then 0 else 1) ≤ 1 := by
  induction es generalizing st0 with
  | nil => simp only [List.countP_nil, Nat.zero_add]; split_ifs <;> omega
  | cons e rest ih =>
    rw [List.foldlM_cons] at h
    cases hs : compileStep st0 e with
    | error err => rw [hs] at h; exact Except.noConfusion h
    | ok st1 =>
      rw [hs, except_bind_ok] at h
      have hrest := ih st1 h (fun p hp => hne p (List.mem_cons_of_mem _ hp))
      rw [List.countP_cons]
      cases e with
      | project q =>
        obtain ⟨h0, h1⟩ := compileStep_project_ok st0 st1 q hs
        have hq : q ≠ [] := hne q (List.mem_cons_self _ _)
        rw [if_pos h0]
        rw [if_neg (h1 ▸ hq)] at hrest
        have hcount : (rest.countP fun e => match e with
            | Expression.project _ => true | _ => false) = 0 := by omega
        rw [hcount]
        simp
      | description d =>
        have hp := compileStep_project_eq st0 st1 _ hs (fun p => Expression.noConfusion)
        simp only [hp] at hrest
        simpa using hrest
      | tag tg =>
        have hp := compileStep_project_eq st0 st1 _ hs (fun p => Expression.noConfusion)
        simp only [hp] at hrest
        simpa using hrest
      | metaKV k v =>
        have hp := compileStep_project_eq st0 st1 _ hs (fun p => Expression.noConfusion)
        simp only [hp] at hrest
        simpa using hrest
      | priority p =>
        have hp := compileStep_project_eq st0 st1 _ hs (fun p => Expression.noConfusion)
        simp only [hp] at hrest
        simpa using hrest
      | duedate d =>
        have hp := compileStep_project_eq st0 st1 _ hs (fun p => Expression.noConfusion)
        simp only [hp] at hrest
        simpa using hrest

theorem compile_go_project_val (es : List Expression) (st0 st : CompileSt)
    (h : es.foldlM compileStep st0 = .ok st)
    (hproj : (es.filterMap fun e => match e with
      | Expression.project s => some s | _ => none) = []) :
    st.project = st0.project := by
  induction es generalizing st0 with
  | nil =>
    simp only [List.foldlM_nil, pure, Except.pure, Except.ok.injEq] at h
    subst h; rfl
  | cons e rest ih =>
    rw [List.foldlM_cons] at h
    cases hs : compileStep st0 e with
    | error err => rw [hs] at h; exact Except.noConfusion h
    | ok st1 =>
      rw [hs, except_bind_ok] at h
      rw [List.filterMap_cons] at hproj
      cases e with
      | project q => simp at hproj
      | description d =>
        rw [ih st1 h (by simpa using hproj)]
        exact compileStep_project_eq st0 st1 _ hs (fun p => Expression.noConfusion)
      | tag tg =>
        rw [ih st1 h (by simpa using hproj)]
        exact compileStep_project_eq st0 st1 _ hs (fun p => Expression.noConfusion)
      | metaKV k v =>
        rw [ih st1 h (by simpa using hproj)]
        exact compileStep_project_eq st0 st1 _ hs (fun p => Expression.noConfusion)
      | priority p =>
        rw [ih st1 h (by simpa using hproj)]
        exact compileStep_project_eq st0 st1 _ hs (fun p => Expression.noConfusion)
      | duedate d =>
        rw [ih st1 h (by simpa using hproj)]
        exact compileStep_project_eq st0 st1 _ hs (fun p => Expression.noConfusion)

theorem compile_go_project_single (es : List Expression) (st0 st : CompileSt) (p : Str)
    (h : es.foldlM compileStep st0 = .ok st)
    (hproj : (es.filterMap fun e => match e with
      | Expression.project s => some s | _ => none) = [p])
    (h0 : st0.project = []) :
    st.project = p := by
  induction es generalizing st0 with
  | nil => simp at hproj
  | cons e rest ih =>
    rw [List.foldlM_cons] at h
    cases hs : compileStep st0 e with
    | error err => rw [hs] at h; exact Except.noConfusion h
    | ok st1 =>
      rw [hs, except_bind_ok] at h
      rw [List.filterMap_cons] at hproj
      cases e with
      | project q =>
        have hq : q = p ∧ (rest.filterMap fun e => match e with
            | Expression.project s => some s | _ => none) = [] := by
          simpa using hproj
        obtain ⟨h1, h2⟩ := compileStep_project_ok st0 st1 q hs
        rw [compile_go_project_val rest st1 st h hq.2, h2, hq.1]
      | description d =>
        exact ih st1 h (by simpa using hproj)
          (by rw [compileStep_project_eq st0 st1 _ hs (fun p => Expression.noConfusion)]; exact h0)
      | tag tg =>
        exact ih st1 h (by simpa using hproj)
          (by rw [compileStep_project_eq st0 st1 _ hs (fun p => Expression.noConfusion)]; exact h0)
      | metaKV k v =>
        exact ih st1 h (by simpa using hproj)
          (by rw [compileStep_project_eq st0 st1 _ hs (fun p => Expression.noConfusion)]; exact h0)
      | priority pp =>
        exact ih st1 h (by simpa using hproj)
          (by rw [compileStep_project_eq st0 st1 _ hs (fun p => Expression.noConfusion)]; exact h0)
      | duedate d =>
        exact ih st1 h (by simpa using hproj)
          (by rw [compileStep_project_eq st0 st1 _ hs (fun p => Expression.noConfusion)]; exact h0)

theorem from_task_descriptor_ok (input : Str) (id : Nat) (now : Int) (t : Task)
    (h : from_task_descriptor input id now = .ok t) :
    ∃ es st s, parse_task input = .ok es ∧ compileExprs es = .ok st ∧
      (taskOfCompile st id now).score now = .ok s ∧
      t = { taskOfCompile st id now with
            metadata := minsert (taskOfCompile st id now).metadata keyScore (.num s) } := by
  unfold from_task_descriptor at h
  split_ifs at h
  split at h
  next e heq => exact Except.noConfusion h
  next es heq =>
  split at h
  next e heq2 => exact Except.noConfusion h
  next st heq2 =>
  split at h
  next e heq3 => exact Except.noConfusion h
  next s heq3 =>
  simp only [Except.ok.injEq] at h
  subst h
  exact ⟨es, st, s, heq, heq2, heq3, rfl⟩

/-- Claim C8: a second Project expression (reaching the fold with the project
already set) fails with MultipleProjectsNotAllowed, and likewise a second
Priority / DueDate expression fails with MultiplePrioritiesNotAllowed /
MultipleDuedatesNotAllowed; a compiled descriptor holds at most one project
directive, and a descriptor with exactly one project directive yields exactly
that project value. -/
theorem c8_unique_directives :
    (∀ (es : List Expression) (st : CompileSt), compileExprs es = .ok st →
      (∀ p, Expression.project p ∈ es → p ≠ []) →
      (es.countP fun e => match e with | Expression.project _ => true | _ => false) ≤ 1) ∧
    (∀ (pre : List Expression) (q : Str) (post : List Expression) (st : CompileSt),
      compileExprs pre = .ok st → st.project ≠ [] →
      compileExprs (pre ++ Expression.project q :: post)
        = .error .multipleProjectsNotAllowed) ∧
    (∀ (pre : List Expression) (p : TaskPriority) (post : List Expression) (st : CompileSt),
      compileExprs pre = .ok st → mcontains st.metadata keyPriority = true →
      compileExprs (pre ++ Expression.priority p :: post)
        = .error .multiplePrioritiesNotAllowed) ∧
    (∀ (pre : List Expression) (d : Int) (post : List Expression) (st : CompileSt),
      compileExprs pre = .ok st → mcontains st.metadata keyDueTime = true →
      compileExprs (pre ++ Expression.duedate d :: post)
        = .error .multipleDuedatesNotAllowed) ∧
    (∀ (es : List Expression) (st : CompileSt) (p : Str), compileExprs es = .ok st →
      (es.filterMap fun e => match e with
        | Expression.project s => some s | _ => none) = [p] →
      st.project = p) ∧
    (∀ (input : Str) (id : Nat) (now : Int) (t : Task) (es : List Expression) (p : Str),
      parse_task input = .ok es →
      (es.filterMap fun e => match e with
        | Expression.project s => some s | _ => none) = [p] →
      from_task_descriptor input id now = .ok t → t.project = some p) := by
  refine ⟨?_, ?_, ?_, ?_, ?_, ?_⟩
  · intro es st h hne
    have := compile_go_project_count es compileInit st h hne
    simpa [compileInit] using this
  · intro pre q post st h hproj
    unfold compileExprs at h ⊢
    rw [foldlM_compile_append pre _ compileInit st h, List.foldlM_cons]
    have : compileStep st (.project q) = .error .multipleProjectsNotAllowed := by
      simp only [compileStep]
      rw [if_pos hproj]
    rw [this, except_bind_err]
  · intro pre p post st h hdup
    unfold compileExprs at h ⊢
    rw [foldlM_compile_append pre _ compileInit st h, List.foldlM_cons]
    have : compileStep st (.priority p) = .error .multiplePrioritiesNotAllowed := by
      simp only [compileStep]
      rw [if_pos hdup]
    rw [this, except_bind_err]
  · intro pre d post st h hdup
    unfold compileExprs at h ⊢
    rw [foldlM_compile_append pre _ compileInit st h, List.foldlM_cons]
    have : compileStep st (.duedate d) = .error .multipleDuedatesNotAllowed := by
      simp only [compileStep]
      rw [if_pos hdup]
    rw [this, except_bind_err]
  · intro es st p h hsingle
    exact compile_go_project_single es compileInit st p h hsingle rfl
  · intro input id now t es p hparse hsingle hok
    obtain ⟨es', st, s, hparse', hc, -, ht⟩ := from_task_descriptor_ok input id now t hok
    have hes : es' = es := by
      rw [hparse] at hparse'
      exact (Except.ok.inj hparse').symm
    subst hes
    have hst : st.project = p := compile_go_project_single es' compileInit st p hc hsingle rfl
    have hpne : p ≠ [] := by
      apply parse_task_project_ne_nil input es' hparse p
      have hp : p ∈ es'.filterMap fun e => match e with
          | Expression.project s => some s | _ => none := by
        rw [hsingle]; exact List.mem_singleton_self p
      obtain ⟨e, hmem, hfe⟩ := List.mem_filterMap.mp hp
      cases e <;> simp only [Option.some.injEq] at hfe
      case project s' => rw [hfe] at hmem; exact hmem
      all_goals exact Option.noConfusion hfe
    have hproj : t.project = (if st.project = [] then none else some st.project) := by
      rw [ht]; rfl
    rw [hproj, if_neg (hst ▸ hpne), hst]

/-- Witness for `c8_unique_directives`: after a project is set, a second
project expression fails. -/
theorem c8_unique_directives_witness :
    compileExprs ([Expression.project "a".toList]
        ++ Expression.project "b".toList :: [])
      = .error .multipleProjectsNotAllowed :=
  c8_unique_directives.2.1 [Expression.project "a".toList] "b".toList []
    { description := [], tags := [], metadata := [], project := "a".toList }
    (by rfl) (by decide)

/-- Claim C2: the lexer scans the remaining input from every character
offset in order; at the first offset where any directive grammar matches,
the text strictly before that offset (trimmed) becomes a Description if
non-empty, the match becomes its typed expression, and scanning resumes on
the unmatched remainder; if no offset matches, the whole trimmed remainder
becomes a final Description; in particular `"abc#work"` parses to
Description "abc" followed by Tag "work". -/
theorem c2_lexer_scan :
    (∀ (input : Str) (i : Nat) (rem : Str) (pr : Proto),
      (∀ j, j < i → directive (input.drop j) = none) →
      directive (input.drop i) = some (rem, pr) →
      parse_inline input =
        (if trimStr (input.take i) = [] then [pr]
         else [Proto.desc (trimStr (input.take i)), pr]) ++ parse_inline rem) ∧
    (∀ input : Str, input ≠ [] → (∀ j, directive (input.drop j) = none) →
      parse_inline input = [Proto.desc (trimStr input)]) ∧
    parse_inline [] = [] ∧
    parse_task "abc#work".toList
      = .ok [Expression.description "abc".toList, Expression.tag "work".toList] := by
  refine ⟨?_, ?_, rfl, by decide⟩
  · intro input i rem pr hleast hdir
    exact parse_inline_step input i rem pr (findDirective_of_least input i rem pr hdir hleast)
  · intro input hne hall
    apply parse_inline_last input hne
    cases hf : findDirective input with
    | none => rfl
    | some v =>
      obtain ⟨i, rem, pr⟩ := v
      obtain ⟨-, hdir, -⟩ := findDirective_some input i rem pr hf
      rw [hall i] at hdir
      exact Option.noConfusion hdir

/-- Witness for `c2_lexer_scan`: the directive in `"a#b"` is found at
offset 1 and the leading `"a"` becomes a Description. -/
theorem c2_lexer_scan_witness :
    parse_inline "a#b".toList =
      (if trimStr ("a#b".toList.take 1) = [] then [Proto.tagP "b".toList]
       else [Proto.desc (trimStr ("a#b".toList.take 1)), Proto.tagP "b".toList])
        ++ parse_inline [] :=
  c2_lexer_scan.1 "a#b".toList 1 [] (Proto.tagP "b".toList) (by decide) (by decide)

theorem mem_insertAsc {α : Type} (key : α → Nat) (x : α) (l : List α) (b : α) :
    b ∈ insertAsc key x l ↔ b = x ∨ b ∈ l := by
  induction l with
  | nil => simp [insertAsc]
  | cons y rest ih =>
    rw [insertAsc]
    by_cases hle : key x ≤ key y
    · rw [if_pos hle]
      simp [or_comm, or_assoc, or_left_comm]
    · rw [if_neg hle]
      simp only [List.mem_cons, ih]
      tauto

theorem insertAsc_pairwise {α : Type} (key : α → Nat) (x : α) (l : List α)
    (h : l.Pairwise fun a b => key a ≤ key b) :
    (insertAsc key x l).Pairwise fun a b => key a ≤ key b := by
  induction l with
  | nil => simp [insertAsc]
  | cons y rest ih =>
    rw [insertAsc]
    rw [List.pairwise_cons] at h
    obtain ⟨hy, hrest⟩ := h
    by_cases hle : key x ≤ key y
    · rw [if_pos hle]
      refine List.Pairwise.cons ?_ (List.Pairwise.cons hy hrest)
      intro b hb
      rcases List.mem_cons.mp hb with rfl | hb
      · exact hle
      · exact le_trans hle (hy b hb)
    · rw [if_neg hle]
      refine List.Pairwise.cons ?_ (ih hrest)
      intro b hb
      rcases (mem_insertAsc key x rest b).mp hb with rfl | hb
      · omega
      · exact hy b hb

theorem beq_true_of_eq {a b : Nat} (h : a = b) : (a == b) = true := by simp [h]

theorem beq_false_of_ne {a b : Nat} (h : ¬ a = b) : (a == b) = false := by simp [h]

theorem insertAsc_filter {α : Type} (key : α → Nat) (x : α) (l : List α) (k : Nat) :
    (insertAsc key x l).filter (fun a => key a == k)
      = if key x == k then x :: l.filter (fun a => key a == k)
        else l.filter (fun a => key a == k) := by
  induction l with
  | nil =>
    rw [insertAsc]
    by_cases hxk : key x = k
    · simp [List.filter_cons, beq_true_of_eq hxk]
    · simp [List.filter_cons, beq_false_of_ne hxk]
  | cons y rest ih =>
    rw [insertAsc]
    by_cases hle : key x ≤ key y
    · rw [if_pos hle]
      by_cases hxk : key x = k
      · simp [List.filter_cons, beq_true_of_eq hxk]
      · simp [List.filter_cons, beq_false_of_ne hxk]
    · rw [if_neg hle]
      by_cases hyk : key y = k
      · have hxk : ¬ key x = k := by omega
        simp [List.filter_cons, beq_true_of_eq hyk, beq_false_of_ne hxk, ih]
      · by_cases hxk : key x = k
        · simp [List.filter_cons, beq_false_of_ne hyk, beq_true_of_eq hxk, ih]
        · simp [List.filter_cons, beq_false_of_ne hyk, beq_false_of_ne hxk, ih]

theorem sortByKeyAsc_pairwise {α : Type} (key : α → Nat) (l : List α) :
    (sortByKeyAsc key l).Pairwise fun a b => key a ≤ key b := by
  induction l with
  | nil => simp [sortByKeyAsc]
  | cons x rest ih => exact insertAsc_pairwise key x _ ih

theorem sortByKeyAsc_filter {α : Type} (key : α → Nat) (l : List α) (k : Nat) :
    (sortByKeyAsc key l).filter (fun a => key a == k) = l.filter (fun a => key a == k) := by
  induction l with
  | nil => rfl
  | cons x rest ih =>
    rw [sortByKeyAsc, insertAsc_filter]
    by_cases hxk : key x = k
    · simp [List.filter_cons, beq_true_of_eq hxk, ih]
    · simp [List.filter_cons, beq_false_of_ne hxk, ih]

/-- Claim C6 (amended): `list_tasks` returns the filtered tasks sorted by
descending score, and tasks with EQUAL score appear in the REVERSE of the
enumeration order: the stable ascending `sort_by_key` keeps them in
enumeration order and the final `reverse()` flips them.  (The claim as
stated — equal-score tasks retain enumeration order — is refuted by
`c6_counterexample`.) -/
theorem c6_list_order :
    (∀ (tasks : List Task) (search : Option Str) (incl : Bool) (now : Int),
      (list_tasks_model tasks search incl now).Pairwise
        (fun a b => scoreKey now b ≤ scoreKey now a)) ∧
    (∀ (tasks : List Task) (search : Option Str) (incl : Bool) (now : Int) (k : Nat),
      (list_tasks_model tasks search incl now).filter (fun t => scoreKey now t == k)
        = ((list_tasks_found tasks search incl).filter
            (fun t => scoreKey now t == k)).reverse) := by
  constructor
  · intro tasks search incl now
    unfold list_tasks_model
    rw [List.pairwise_reverse]
    exact sortByKeyAsc_pairwise (scoreKey now) (list_tasks_found tasks search incl)
  · intro tasks search incl now k
    unfold list_tasks_model
    rw [List.filter_reverse, sortByKeyAsc_filter]

/-- Claim C6 as stated is false at a concrete input: two stored tasks with
equal score arrive in enumeration order `[tA, tB]` and `list_tasks` returns
`[tB, tA]` — the relative order of equal-score tasks is reversed, not
retained. -/
theorem c6_counterexample :
    scoreKey 0 { id := 0, description := [], done := false, project := none, tags := none,
                 metadata := [(keyCreateTime, MetaValue.time 0)], timetracker := none }
      = scoreKey 0 { id := 1, description := [], done := false, project := none, tags := none,
                     metadata := [(keyCreateTime, MetaValue.time 0)], timetracker := none } ∧
    list_tasks_model
      [{ id := 0, description := [], done := false, project := none, tags := none,
         metadata := [(keyCreateTime, MetaValue.time 0)], timetracker := none },
       { id := 1, description := [], done := false, project := none, tags := none,
         metadata := [(keyCreateTime, MetaValue.time 0)], timetracker := none }] none true 0
      = [{ id := 1, description := [], done := false, project := none, tags := none,
           metadata := [(keyCreateTime, MetaValue.time 0)], timetracker := none },
         { id := 0, description := [], done := false, project := none, tags := none,
           metadata := [(keyCreateTime, MetaValue.time 0)], timetracker := none }] ∧
    ([{ id := 1, description := [], done := false, project := none, tags := none,
        metadata := [(keyCreateTime, MetaValue.time 0)], timetracker := none },
      { id := 0, description := [], done := false, project := none, tags := none,
        metadata := [(keyCreateTime, MetaValue.time 0)], timetracker := none }] :
        List Task)
      ≠ [{ id := 0, description := [], done := false, project := none, tags := none,
           metadata := [(keyCreateTime, MetaValue.time 0)], timetracker := none },
         { id := 1, description := [], done := false, project := none, tags := none,
           metadata := [(keyCreateTime, MetaValue.time 0)], timetracker := none }] := by
  refine ⟨rfl, by decide, by decide⟩

theorem splitOnDotAux_no_dot (cur s : Str) (hs : '.' ∈ s → False) :
    splitOnDotAux cur s = [cur.reverse ++ s] := by
  induction s generalizing cur with
  | nil => simp [splitOnDotAux]
  | cons c rest ih =>
    rw [splitOnDotAux]
    rw [if_neg (fun hc => hs (by rw [hc]; exact List.mem_cons_self _ _))]
    rw [ih (c :: cur) (fun hc => hs (List.mem_cons_of_mem _ hc))]
    simp

theorem splitOnDotAux_dot (cur a b : Str) (ha : '.' ∈ a → False) :
    splitOnDotAux cur (a ++ '.' :: b) = (cur.reverse ++ a) :: splitOnDotAux [] b := by
  induction a generalizing cur with
  | nil => simp [splitOnDotAux]
  | cons c rest ih =>
    rw [List.cons_append, splitOnDotAux]
    rw [if_neg (fun hc => ha (by rw [hc]; exact List.mem_cons_self _ _))]
    rw [ih (c :: cur) (fun hc => ha (List.mem_cons_of_mem _ hc))]
    simp

/-- Claim C9 (amended): the enumeration operations keep a glob-matched
filename exactly when the SECOND dot-component equals `"yaml"` (the code
indexes `split('.')` at position 1), not when the final dot-suffix does: a
dot-free `<stem>.yaml` name is kept, a rotated backup `<stem>.<n>.yaml` is
dropped, and `amount_of_tasks` (without backups) counts exactly the
filenames `list_tasks` loads. -/
theorem c9_backup_filter :
    (∀ stem : Str, ('.' ∈ stem → False) →
      entityFileKept (stem ++ '.' :: "yaml".toList) = some true) ∧
    (∀ stem n : Str, ('.' ∈ stem → False) → ('.' ∈ n → False) → n ≠ "yaml".toList →
      entityFileKept (stem ++ '.' :: n ++ '.' :: "yaml".toList) = some false) ∧
    (∀ (name : Str) (c0 c1 : Str) (cs : List Str),
      splitOnDot name = c0 :: c1 :: cs →
      entityFileKept name = some (decide (c1 = "yaml".toList))) ∧
    (∀ names : List Str,
      amount_of_tasks_model names false = (keptNames names).map List.length) := by
  refine ⟨?_, ?_, ?_, ?_⟩
  · intro stem hstem
    unfold entityFileKept splitOnDot
    rw [splitOnDotAux_dot [] stem "yaml".toList hstem]
    rw [splitOnDotAux_no_dot [] "yaml".toList (by decide)]
    simp
  · intro stem n hstem hn hne
    unfold entityFileKept splitOnDot
    rw [show stem ++ '.' :: n ++ '.' :: "yaml".toList
          = stem ++ '.' :: (n ++ '.' :: "yaml".toList) from by simp]
    rw [splitOnDotAux_dot [] stem _ hstem]
    rw [splitOnDotAux_dot [] n "yaml".toList hn]
    simp
    exact fun hcon => hne hcon
  · intro name c0 c1 cs hsplit
    unfold entityFileKept
    rw [hsplit]
  · intro names
    induction names with
    | nil => rfl
    | cons n rest ih =>
      rw [amount_of_tasks_model, keptNames]
      cases hk : entityFileKept n with
      | none => rfl
      | some k =>
        simp only [opt_bind_some]
        cases hr : amount_of_tasks_model rest false with
        | none =>
          rw [hr] at ih
          cases hkr : keptNames rest with
          | none => rfl
          | some l => rw [hkr] at ih; exact absurd ih.symm (by simp)
        | some c =>
          rw [hr] at ih
          cases hkr : keptNames rest with
          | none => rw [hkr] at ih; exact absurd ih (by simp)
          | some l =>
            rw [hkr] at ih
            simp at ih
            cases k with
            | false => simp [ih]
            | true => simp [ih]

/-- Witness for `c9_backup_filter`: the rotated backup name `"u.1.yaml"` is
dropped by the filter. -/
theorem c9_backup_filter_witness :
    entityFileKept ("u".toList ++ '.' :: "1".toList ++ '.' :: "yaml".toList) = some false :=
  c9_backup_filter.2.1 "u".toList "1".toList (by decide) (by decide) (by decide)

/-- Claim C9 as stated is false at a concrete input: the glob-matched
filename `"a.1.yaml"` DOES have final dot-suffix `"yaml"` (so the claim
says it is included) but the code's `split('.')[1]` check excludes it —
`amount_of_tasks` without backups counts 0 such files. -/
theorem c9_counterexample :
    finalSuffixIsYaml "a.1.yaml".toList = true ∧
    entityFileKept "a.1.yaml".toList = some false ∧
    amount_of_tasks_model ["a.1.yaml".toList] false = some 0 := by
  refine ⟨by decide, by decide, by decide⟩

end Tsk
